import Mathlib

/-!
Verification of the text-segment protection and substitution pipeline of
`md2pdf.py` (functions `_protect_fenced_code`, `_restore_fenced_code`,
`_tex_to_svg_data_uri`, `_render_math_in_markdown` and the regexes
`_FENCE_RE`, `BLOCK_MATH_RE`, `INLINE_MATH_RE`).

A document is modelled as a `List Char` (the characters of the Python
string).  Python's `str.splitlines(keepends=True)`, `str.lstrip()`,
`str.strip()`, `str.startswith`, `str.replace` and `html.escape` are given
executable models below.  The matplotlib `math_to_image` call together
with the byte buffer is the external renderer collaborator (spec section 6);
it is modelled as an abstract function producing the SVG bytes, which may
fail (`Except`), and the base64 data-URI encoding applied to its output is
implemented concretely.  The process-wide cache `_math_cache` and the
renderer invocations are threaded explicitly through a state record; the
list of invocations records each time the collaborator is actually called.
-/

/-- Characters of a string literal (Python strings are character sequences). -/
def strChars (s : String) : List Char := s.data

/-- Python whitespace (the characters stripped by `str.lstrip`/`str.strip`
and matched by the regex class `\s`); the common ASCII/Latin-1 subset is
modelled. -/
def isPySpace (c : Char) : Bool :=
  c = ' ' ∨ c = '\t' ∨ c = '\n' ∨ c = '\r' ∨ c = '\x0b' ∨ c = '\x0c' ∨
  c = '\x1c' ∨ c = '\x1d' ∨ c = '\x1e' ∨ c = '\x1f' ∨ c = '\x85' ∨ c = '\xa0'

/-- Python `str.lstrip()`. -/
def pyLstrip (l : List Char) : List Char := l.dropWhile isPySpace

/-- Python `str.strip()` (both ends). -/
def pyStrip (l : List Char) : List Char :=
  ((l.dropWhile isPySpace).reverse.dropWhile isPySpace).reverse

/-- Python `str.startswith` on character lists. -/
def pyStartsWith (s p : List Char) : Bool := s.take p.length = p

/-- Line-break characters recognised by Python `str.splitlines`. -/
def isLineBreak (c : Char) : Bool :=
  c = '\n' ∨ c = '\r' ∨ c = '\x0b' ∨ c = '\x0c' ∨
  c = '\x1c' ∨ c = '\x1d' ∨ c = '\x1e' ∨ c = '\x85' ∨
  c = '\u2028' ∨ c = '\u2029'

/-- Worker for `splitlinesKeep`: `acc` holds the current line, reversed. -/
def splitlinesAux : List Char → List Char → List (List Char)
  | acc, [] => if acc = [] then [] else [acc.reverse]
  | acc, '\r' :: '\n' :: rest => (acc.reverse ++ ['\r', '\n']) :: splitlinesAux [] rest
  | acc, c :: rest =>
    if isLineBreak c then (acc.reverse ++ [c]) :: splitlinesAux [] rest
    else splitlinesAux (c :: acc) rest

/-- Python `str.splitlines(keepends=True)`. -/
def splitlinesKeep (l : List Char) : List (List Char) := splitlinesAux [] l

/-- Python `"".join(...)` over a list of character lists. -/
def joinAll (ls : List (List Char)) : List Char := ls.foldr (· ++ ·) []

/-!
## Fence masking (`_FENCE_RE`, `_protect_fenced_code`, `_restore_fenced_code`)
-/

/-- Model of `_FENCE_RE.match(line)` followed by `m.group(2)`: the regex
is `^(\s*)(```|~~~)`, so after the maximal whitespace prefix the line must
start with one of the two fence markers, and the marker is returned. -/
def fenceMatch (line : List Char) : Option (List Char) :=
  let t := pyLstrip line
  if pyStartsWith t (strChars "```") then some (strChars "```")
  else if pyStartsWith t (strChars "~~~") then some (strChars "~~~")
  else none

/-- The loop state of `_protect_fenced_code`.  The Python placeholder
strings `"@@FENCED_CODE_BLOCK_<n>@@"` are represented by their index `n`
(the full key text is produced by `mkKey`); `blocks` is the placeholder
dictionary in insertion order. -/
structure PState where
  out : List (List Char)
  blocks : List (Nat × List Char)
  in_fence : Bool
  fence : Option (List Char)
  buf : List (List Char)
  key : Option Nat
  idx : Nat
deriving DecidableEq, Repr

/-- Digit characters (for rendering the placeholder index in decimal). -/
def digitChar : Nat → Char
  | 0 => '0' | 1 => '1' | 2 => '2' | 3 => '3' | 4 => '4'
  | 5 => '5' | 6 => '6' | 7 => '7' | 8 => '8' | 9 => '9'
  | _ => '*'

/-- Worker for `natDigits`; `fuel` bounds the number of digits (the value
strictly decreases on every recursive call, so `n + 1` steps always
suffice and the `fuel = 0` case is never reached from `natDigits`). -/
def natDigitsGo : Nat → Nat → List Char
  | 0, _ => []
  | fuel + 1, n =>
    if n < 10 then [digitChar n] else natDigitsGo fuel (n / 10) ++ [digitChar (n % 10)]

/-- Decimal digits of a natural number, most significant first. -/
def natDigits (n : Nat) : List Char := natDigitsGo (n + 1) n

/-- The placeholder token `f"@@FENCED_CODE_BLOCK_{idx}@@"`. -/
def mkKey (n : Nat) : List Char :=
  strChars "@@FENCED_CODE_BLOCK_" ++ natDigits n ++ strChars "@@"

/-- The initial loop state of `_protect_fenced_code`. -/
def initPState : PState :=
  { out := [], blocks := [], in_fence := false, fence := none,
    buf := [], key := none, idx := 0 }

/-- One iteration of the `for line in lines` loop of `_protect_fenced_code`. -/
def stepLine (s : PState) (line : List Char) : PState :=
  if s.in_fence = false then
    match fenceMatch line with
    | some marker =>
      { s with in_fence := true, fence := some marker, buf := [line],
               key := some s.idx, idx := s.idx + 1 }
    | none => { s with out := s.out ++ [line] }
  else
    let buf' := s.buf ++ [line]
    if pyStartsWith (pyLstrip line) (s.fence.getD []) then
      { s with in_fence := false,
               blocks := s.blocks ++ [(s.key.getD 0, joinAll buf')],
               out := s.out ++ [mkKey (s.key.getD 0) ++ ['\n']],
               buf := [], fence := none, key := none }
    else { s with buf := buf' }

/-- `_protect_fenced_code`: replace fenced code blocks with placeholders;
returns the masked text and the placeholder map.  An unclosed fence at the
end of the document is emitted as-is. -/
def protect_fenced_code (md : List Char) : List Char × List (Nat × List Char) :=
  let s := (splitlinesKeep md).foldl stepLine initPState
  let out := if s.in_fence && !s.buf.isEmpty then s.out ++ s.buf else s.out
  (joinAll out, s.blocks)

/-- Python `str.replace(pat, rep)`: replace all non-overlapping occurrences
of `pat`, scanning left to right.  (For an empty pattern Python inserts
`rep` at every position; the placeholder keys used here are never empty.) -/
def replaceAllGo (pat rep : List Char) : Nat → List Char → List Char
  | 0, t => t
  | fuel + 1, t =>
    if pat = [] then
      match t with
      | [] => rep
      | c :: rest => rep ++ c :: replaceAllGo pat rep fuel rest
    else
      match t with
      | [] => []
      | c :: rest =>
        if pyStartsWith (c :: rest) pat then
          rep ++ replaceAllGo pat rep fuel ((c :: rest).drop pat.length)
        else
          c :: replaceAllGo pat rep fuel rest

def replaceAll (t pat rep : List Char) : List Char :=
  replaceAllGo pat rep (t.length + 1) t

/-- `_restore_fenced_code`: replace every placeholder occurrence with its
stored fenced text, iterating over the map in insertion order. -/
def restore_fenced_code (md : List Char) (blocks : List (Nat × List Char)) : List Char :=
  blocks.foldl (fun t kv => replaceAll t (mkKey kv.1) kv.2) md

/-!
## Math rendering state (`_math_cache`, `_tex_to_svg_data_uri`)
-/

deriving instance DecidableEq for Except

/-- The renderer state: the process-wide cache `_math_cache` keyed by
`(tex, fontsize)`, plus an instrumentation log recording each invocation
of the external renderer collaborator (a cache miss). -/
structure RState where
  cache : List ((List Char × Nat) × List Char)
  calls : List (List Char × Nat)
deriving DecidableEq, Repr

/-- The base64 alphabet. -/
def b64Table : List Char :=
  strChars "ABCDEFGHIJKLMNOPQRSTUVWXYZabcdefghijklmnopqrstuvwxyz0123456789+/"

def b64Char (n : Nat) : Char := b64Table.getD n '='

/-- `base64.b64encode` on a byte sequence (bytes as naturals below 256). -/
def base64Encode : List Nat → List Char
  | [] => []
  | [a] => [b64Char (a / 4), b64Char (a % 4 * 16), '=', '=']
  | [a, b] => [b64Char (a / 4), b64Char (a % 4 * 16 + b / 16), b64Char (b % 16 * 4), '=']
  | a :: b :: c :: rest =>
    [b64Char (a / 4), b64Char (a % 4 * 16 + b / 16), b64Char (b % 16 * 4 + c / 64),
     b64Char (c % 64)] ++ base64Encode rest

/-- The `data:image/svg+xml;base64,...` URI built from the SVG bytes. -/
def dataUri (svg : List Nat) : List Char :=
  strChars "data:image/svg+xml;base64," ++ base64Encode svg

/-- `_tex_to_svg_data_uri`: on a cache hit return the stored URI without
touching the renderer; on a miss invoke the external renderer collaborator
(`matplotlib.mathtext.math_to_image` writing SVG bytes into the buffer,
which may raise), encode the bytes as a data URI, store it in the cache
and log the invocation. -/
def tex_to_svg_data_uri {ε : Type} (render : List Char → Nat → Except ε (List Nat))
    (st : RState) (tex : List Char) (fontsize : Nat) : Except ε (List Char × RState) :=
  match List.lookup (tex, fontsize) st.cache with
  | some uri => .ok (uri, st)
  | none => do
    let svg ← render tex fontsize
    let uri := dataUri svg
    .ok (uri, { cache := st.cache ++ [((tex, fontsize), uri)],
                calls := st.calls ++ [(tex, fontsize)] })

/-!
## Math substitution (`BLOCK_MATH_RE`, `INLINE_MATH_RE`, `_render_math_in_markdown`)
-/

/-- `html.escape(s, quote=True)` for one character. -/
def escapeChar (c : Char) : List Char :=
  if c = '&' then strChars "&amp;"
  else if c = '<' then strChars "&lt;"
  else if c = '>' then strChars "&gt;"
  else if c = '"' then strChars "&quot;"
  else if c = '\'' then strChars "&#x27;"
  else [c]

/-- `html.escape(s, quote=True)`. -/
def htmlEscape : List Char → List Char
  | [] => []
  | c :: rest => escapeChar c ++ htmlEscape rest

/-- `repl_block`: the replacement fragment for a block math match (the
argument `tex` is the already-stripped expression, `uri` the data URI). -/
def repl_block (tex uri : List Char) : List Char :=
  strChars "\n<div class=\"math-block\"><img class=\"math-display\" src=\"" ++ uri ++
  strChars "\" alt=\"" ++ htmlEscape tex ++ strChars "\"></div>\n"

/-- `repl_inline`: the replacement fragment for an inline math match. -/
def repl_inline (tex uri : List Char) : List Char :=
  strChars "<img class=\"math-inline\" src=\"" ++ uri ++
  strChars "\" alt=\"" ++ htmlEscape tex ++ strChars "\">"

/-- Lazy search for the closing `$$` of `BLOCK_MATH_RE` = `\$\$(.+?)\$\$`
(DOTALL): given the text after the opening `$$`, return the shortest
non-empty capture together with the text after the closing `$$`. -/
def findClose : List Char → Option (List Char × List Char)
  | [] => none
  | c :: rest =>
    match rest with
    | '$' :: '$' :: r => some ([c], r)
    | _ => (findClose rest).map (fun p => (c :: p.1, p.2))

/-- Lazy search for the closing `$` of
`INLINE_MATH_RE` = `(?<!\\)\$(?!\$)([^\n]+?)(?<!\\)\$`: given the text
after the opening `$`, return the shortest non-empty newline-free capture
not ending in a backslash that is followed by `$`, with the rest. -/
def findInlineClose : List Char → Option (List Char × List Char)
  | [] => none
  | c :: rest =>
    if c = '\n' then none
    else if rest.take 1 = ['$'] ∧ c ≠ '\\' then some ([c], rest.drop 1)
    else (findInlineClose rest).map (fun p => (c :: p.1, p.2))

/-- Worker for `BLOCK_MATH_RE.sub(repl_block, text)`; `fuel` bounds the
number of scan steps (every step consumes at least one character, so
`length + 1` always suffices; the `fuel = 0` case is never reached from
`blockSub`). -/
def blockSubGo {ε : Type} (render : List Char → Nat → Except ε (List Nat)) :
    Nat → RState → List Char → Except ε (List Char × RState)
  | 0, st, cs => .ok (cs, st)
  | fuel + 1, st, cs =>
    match cs with
    | '$' :: '$' :: rest =>
      match findClose rest with
      | some (content, rest') => do
        let (uri, st') ← tex_to_svg_data_uri render st (pyStrip content) 16
        let (out, st'') ← blockSubGo render fuel st' rest'
        .ok (repl_block (pyStrip content) uri ++ out, st'')
      | none => do
        let (out, st') ← blockSubGo render fuel st ('$' :: rest)
        .ok ('$' :: out, st')
    | c :: rest => do
      let (out, st') ← blockSubGo render fuel st rest
      .ok (c :: out, st')
    | [] => .ok ([], st)

/-- `BLOCK_MATH_RE.sub(repl_block, text)`: replace every (lazily matched)
`$$...$$` span, threading the cache and propagating renderer failures. -/
def blockSub {ε : Type} (render : List Char → Nat → Except ε (List Nat))
    (st : RState) (cs : List Char) : Except ε (List Char × RState) :=
  blockSubGo render (cs.length + 1) st cs

/-- Worker for `INLINE_MATH_RE.sub(repl_inline, text)`; `prev` is the
character preceding the scan position in the original text (for the
`(?<!\\)` look-behind), `fuel` as in `blockSubGo`. -/
def inlineSubGo {ε : Type} (render : List Char → Nat → Except ε (List Nat)) :
    Nat → RState → Option Char → List Char → Except ε (List Char × RState)
  | 0, st, _, cs => .ok (cs, st)
  | fuel + 1, st, prev, cs =>
    match cs with
    | '$' :: rest =>
      if prev = some '\\' || rest.take 1 = ['$'] then do
        let (out, st') ← inlineSubGo render fuel st (some '$') rest
        .ok ('$' :: out, st')
      else
        match findInlineClose rest with
        | some (content, rest') => do
          let (uri, st') ← tex_to_svg_data_uri render st (pyStrip content) 12
          let (out, st'') ← inlineSubGo render fuel st' (some '$') rest'
          .ok (repl_inline (pyStrip content) uri ++ out, st'')
        | none => do
          let (out, st') ← inlineSubGo render fuel st (some '$') rest
          .ok ('$' :: out, st')
    | c :: rest => do
      let (out, st') ← inlineSubGo render fuel st (some c) rest
      .ok (c :: out, st')
    | [] => .ok ([], st)

/-- `INLINE_MATH_RE.sub(repl_inline, text)`. -/
def inlineSub {ε : Type} (render : List Char → Nat → Except ε (List Nat))
    (st : RState) (cs : List Char) : Except ε (List Char × RState) :=
  inlineSubGo render (cs.length + 1) st none cs

/-- The block math spans (captured groups of `BLOCK_MATH_RE`, before
stripping) recognised in a text, in match order. -/
def blockSpansGo : Nat → List Char → List (List Char)
  | 0, _ => []
  | fuel + 1, cs =>
    match cs with
    | '$' :: '$' :: rest =>
      match findClose rest with
      | some (content, rest') => content :: blockSpansGo fuel rest'
      | none => blockSpansGo fuel ('$' :: rest)
    | _ :: rest => blockSpansGo fuel rest
    | [] => []

def blockSpans (cs : List Char) : List (List Char) := blockSpansGo (cs.length + 1) cs

/-- The inline math spans (captured groups of `INLINE_MATH_RE`, before
stripping) recognised in a text, in match order. -/
def inlineSpansGo : Nat → Option Char → List Char → List (List Char)
  | 0, _, _ => []
  | fuel + 1, prev, cs =>
    match cs with
    | '$' :: rest =>
      if prev = some '\\' || rest.take 1 = ['$'] then inlineSpansGo fuel (some '$') rest
      else
        match findInlineClose rest with
        | some (content, rest') => content :: inlineSpansGo fuel (some '$') rest'
        | none => inlineSpansGo fuel (some '$') rest
    | c :: rest => inlineSpansGo fuel (some c) rest
    | [] => []

def inlineSpans (cs : List Char) : List (List Char) := inlineSpansGo (cs.length + 1) none cs

/-- `_render_math_in_markdown`: mask fenced code, substitute block math,
then inline math, and restore the fenced code.  A renderer failure is not
caught and propagates; nothing is returned in that case. -/
def render_math_in_markdown {ε : Type} (render : List Char → Nat → Except ε (List Nat))
    (st : RState) (md : List Char) : Except ε (List Char × RState) := do
  let p := protect_fenced_code md
  let (b, st1) ← blockSub render st p.1
  let (i, st2) ← inlineSub render st1 b
  .ok (restore_fenced_code i p.2, st2)

/-- Relation between the document's lines and the line list emitted by the
masking loop of `_protect_fenced_code`: a line that is not a fence opener
and lies outside every fence region passes through unchanged and in its
original relative position; a closed fence region (opener, non-closing
body lines, closing line) is replaced by a single placeholder line; a
trailing unterminated fence region is emitted raw. -/
inductive MaskedLines : List (List Char) → List (List Char) → Prop
  | nil : MaskedLines [] []
  | pass {l : List Char} {ls out : List (List Char)} :
      fenceMatch l = none → MaskedLines ls out → MaskedLines (l :: ls) (l :: out)
  | fence {l marker lc : List Char} {body ls out : List (List Char)} {n : Nat} :
      fenceMatch l = some marker →
      (∀ b ∈ body, pyStartsWith (pyLstrip b) marker = false) →
      pyStartsWith (pyLstrip lc) marker = true →
      MaskedLines ls out →
      MaskedLines (l :: (body ++ lc :: ls)) ((mkKey n ++ ['\n']) :: out)
  | unterminated {l marker : List Char} {body : List (List Char)} :
      fenceMatch l = some marker →
      (∀ b ∈ body, pyStartsWith (pyLstrip b) marker = false) →
      MaskedLines (l :: body) (l :: body)

/-- `occursIn t s`: the token `t` occurs verbatim, as a contiguous
substring, in `s`. -/
def occursIn (t s : List Char) : Prop := ∃ l r, s = l ++ t ++ r

set_option maxRecDepth 8000

/-!
## Basic lemmas
-/

theorem joinAll_nil : joinAll [] = [] := rfl

theorem joinAll_cons (a : List Char) (ls : List (List Char)) :
    joinAll (a :: ls) = a ++ joinAll ls := rfl

theorem joinAll_append (a b : List (List Char)) :
    joinAll (a ++ b) = joinAll a ++ joinAll b := by
  induction a with
  | nil => rfl
  | cons x xs ih => simp [joinAll_cons, ih, List.append_assoc]

theorem joinAll_splitlinesAux (acc : List Char) (l : List Char) :
    joinAll (splitlinesAux acc l) = acc.reverse ++ l := by
  induction acc, l using splitlinesAux.induct with
  | case1 => simp_all [splitlinesAux, joinAll]
  | case2 => simp_all [splitlinesAux, joinAll]
  | case3 => simp_all [splitlinesAux, joinAll_cons, List.append_assoc]
  | case4 => simp_all [splitlinesAux, joinAll_cons, List.append_assoc]
  | case5 => simp_all [splitlinesAux, joinAll_cons, List.append_assoc]

/-- Joining the kept-ends lines gives back the document. -/
theorem joinAll_splitlinesKeep (l : List Char) :
    joinAll (splitlinesKeep l) = l := by
  simpa using joinAll_splitlinesAux [] l



/-!
## Invariants of the masking fold
-/

theorem stepLine_blocks_mono (s : PState) (line : List Char) :
    (stepLine s line).blocks = s.blocks ∨
    ∃ e, (stepLine s line).blocks = s.blocks ++ [e] := by
  unfold stepLine
  split
  · split <;> simp
  · split <;> simp

theorem foldl_blocks_mono (ls : List (List Char)) (s : PState) :
    ∃ t, (ls.foldl stepLine s).blocks = s.blocks ++ t := by
  induction ls generalizing s with
  | nil => exact ⟨[], by simp⟩
  | cons l rest ih =>
    rw [List.foldl_cons]
    obtain ⟨t, ht⟩ := ih (stepLine s l)
    rcases stepLine_blocks_mono s l with h | ⟨e, h⟩
    · exact ⟨t, by rw [ht, h]⟩
    · exact ⟨[e] ++ t, by rw [ht, h, List.append_assoc]⟩

theorem foldl_blocks_nil (ls : List (List Char)) (s : PState)
    (h : (ls.foldl stepLine s).blocks = []) : s.blocks = [] := by
  obtain ⟨t, ht⟩ := foldl_blocks_mono ls s
  rw [ht] at h
  exact List.append_eq_nil.mp h |>.1

/-- Core invariant of the masking loop: the buffer is empty outside a
fence, and as long as no fence has closed (no placeholder stored) the
emitted lines plus the buffer are exactly the consumed lines. -/
theorem foldl_stepLine_inv (ls : List (List Char)) (s : PState)
    (hbuf : s.in_fence = false → s.buf = []) :
    ((ls.foldl stepLine s).in_fence = false → (ls.foldl stepLine s).buf = []) ∧
    ((ls.foldl stepLine s).blocks = [] →
      (ls.foldl stepLine s).out ++ (ls.foldl stepLine s).buf = s.out ++ s.buf ++ ls) := by
  induction ls generalizing s with
  | nil => exact ⟨hbuf, fun _ => by simp⟩
  | cons l rest ih =>
    rw [List.foldl_cons]
    have hstep : (stepLine s l).in_fence = false → (stepLine s l).buf = [] := by
      unfold stepLine
      split
      · split <;> simp_all
      · split <;> simp_all
    obtain ⟨h1, h2⟩ := ih (stepLine s l) hstep
    refine ⟨h1, fun hb => ?_⟩
    have hsb : (stepLine s l).blocks = [] := foldl_blocks_nil rest _ hb
    rw [h2 hb]
    revert hsb
    unfold stepLine
    split
    · split
      · intro _
        have : s.buf = [] := hbuf (by assumption)
        simp [this]
      · intro _
        have : s.buf = [] := hbuf (by assumption)
        simp [this]
    · split
      · intro hsb
        simp at hsb
      · intro _
        simp

/-!
## Claim C1 (fence round-trip)
-/

/-- C1, counterexample: the claim "for every input document,
`restore(mask(document)) == document`" is false.  For the two-line
document "```\n```" the masking step emits the placeholder followed by a
newline while the stored fenced text already ends in the closing fence
line, so restoring appends one extra newline. -/
theorem fence_roundtrip_counterexample :
    restore_fenced_code (protect_fenced_code (strChars "```\n```")).1
      (protect_fenced_code (strChars "```\n```")).2 ≠ strChars "```\n```" := by
  decide

/-- C1, amended: `restore(mask(document)) == document` holds exactly for
the documents on which masking stores no placeholder (no fence region
closes; unterminated fences are fine).  Whenever a fence closes, the
round trip instead inserts one extra newline after the restored fence
(see the counterexample). -/
theorem fence_roundtrip_no_placeholder (d : List Char)
    (h : (protect_fenced_code d).2 = []) :
    restore_fenced_code (protect_fenced_code d).1 (protect_fenced_code d).2 = d := by
  rw [h]
  show (protect_fenced_code d).1 = d
  have hinv := foldl_stepLine_inv (splitlinesKeep d) initPState (fun _ => rfl)
  unfold protect_fenced_code at h ⊢
  simp only at h ⊢
  obtain ⟨h1, h2⟩ := hinv
  have hout := h2 h
  rw [show initPState.out = [] from rfl, show initPState.buf = [] from rfl,
    List.nil_append, List.nil_append] at hout
  split
  · rw [hout, joinAll_splitlinesKeep]
  · rename_i hcond
    have hbufnil : ((splitlinesKeep d).foldl stepLine initPState).buf = [] := by
      by_cases hf : ((splitlinesKeep d).foldl stepLine initPState).in_fence = true
      · simp [hf, List.isEmpty_iff] at hcond
        exact hcond
      · exact h1 (by simpa using hf)
    rw [← List.append_nil ((splitlinesKeep d).foldl stepLine initPState).out, ← hbufnil,
      hout, joinAll_splitlinesKeep]

/-- C1, witness for the amended theorem at a concrete document. -/
theorem fence_roundtrip_no_placeholder_witness :
    (protect_fenced_code (strChars "hello\nworld\n")).2 = [] ∧
    restore_fenced_code (protect_fenced_code (strChars "hello\nworld\n")).1
      (protect_fenced_code (strChars "hello\nworld\n")).2 = strChars "hello\nworld\n" :=
  ⟨by decide, fence_roundtrip_no_placeholder (strChars "hello\nworld\n") (by decide)⟩

/-!
## Claim C10 (non-fence lines pass through)
-/

theorem foldl_stepLine_no_fence (ls : List (List Char)) (s : PState)
    (hf : s.in_fence = false) (h : ∀ l ∈ ls, fenceMatch l = none) :
    ls.foldl stepLine s = { s with out := s.out ++ ls } := by
  induction ls generalizing s with
  | nil => simp
  | cons l rest ih =>
    rw [List.foldl_cons]
    have hstep : stepLine s l = { s with out := s.out ++ [l] } := by
      unfold stepLine
      simp [hf, h l (by simp)]
    rw [hstep, ih { s with out := s.out ++ [l] } hf (fun x hx => h x (by simp [hx]))]
    simp

/-- A document none of whose lines starts (after stripping leading
whitespace) with one of the two fence markers is returned by the masking
step unchanged, with an empty placeholder map. -/
theorem protect_no_fence_identity (d : List Char)
    (h : ∀ l ∈ splitlinesKeep d, fenceMatch l = none) :
    protect_fenced_code d = (d, []) := by
  unfold protect_fenced_code
  rw [foldl_stepLine_no_fence _ _ rfl h]
  simp [initPState, joinAll_splitlinesKeep d]

/-- The fence-free identity at a concrete document. -/
theorem protect_no_fence_identity_witness :
    (∀ l ∈ splitlinesKeep (strChars "# title\nsome $math$ text\n"), fenceMatch l = none) ∧
    protect_fenced_code (strChars "# title\nsome $math$ text\n") =
      (strChars "# title\nsome $math$ text\n", []) :=
  ⟨by decide, protect_no_fence_identity _ (by decide)⟩

/-!
## Claim C3 (unterminated fence)
-/

theorem stepLine_open (s : PState) (l marker : List Char)
    (hf : s.in_fence = false) (hm : fenceMatch l = some marker) :
    stepLine s l = { s with in_fence := true, fence := some marker, buf := [l],
                            key := some s.idx, idx := s.idx + 1 } := by
  unfold stepLine
  rw [if_pos hf, hm]

theorem stepLine_pass (s : PState) (l : List Char)
    (hf : s.in_fence = false) (hm : fenceMatch l = none) :
    stepLine s l = { s with out := s.out ++ [l] } := by
  unfold stepLine
  rw [if_pos hf, hm]

theorem stepLine_close (s : PState) (l : List Char)
    (hf : s.in_fence = true) (hm : pyStartsWith (pyLstrip l) (s.fence.getD []) = true) :
    stepLine s l = { s with
      in_fence := false,
      blocks := s.blocks ++ [(s.key.getD 0, joinAll (s.buf ++ [l]))],
      out := s.out ++ [mkKey (s.key.getD 0) ++ ['\n']],
      buf := [], fence := none, key := none } := by
  unfold stepLine
  rw [if_neg (by simp [hf]), if_pos hm]

theorem stepLine_stay (s : PState) (l : List Char)
    (hf : s.in_fence = true) (hm : pyStartsWith (pyLstrip l) (s.fence.getD []) = false) :
    stepLine s l = { s with buf := s.buf ++ [l] } := by
  unfold stepLine
  rw [if_neg (by simp [hf]), if_neg (by simp [hm])]

theorem stepLine_buf_nonempty (s : PState) (l : List Char)
    (hs : s.in_fence = true → s.buf ≠ []) :
    (stepLine s l).in_fence = true → (stepLine s l).buf ≠ [] := by
  unfold stepLine
  split
  · split <;> simp_all
  · split <;> simp_all

theorem stepLine_buf_empty (s : PState) (l : List Char)
    (hs0 : s.in_fence = false → s.buf = []) :
    (stepLine s l).in_fence = false → (stepLine s l).buf = [] := by
  unfold stepLine
  split
  · split <;> simp_all
  · split <;> simp_all

/-- Across one loop step the new buffer is a suffix of the old buffer
extended by the consumed line. -/
theorem stepLine_buf_suffix (s : PState) (l : List Char)
    (hs0 : s.in_fence = false → s.buf = []) :
    ∃ q, s.buf ++ [l] = q ++ (stepLine s l).buf := by
  unfold stepLine
  split
  · rename_i hsf
    rw [hs0 hsf]
    split
    · exact ⟨[], by simp⟩
    · exact ⟨[l], by simp⟩
  · split
    · exact ⟨s.buf ++ [l], by simp⟩
    · exact ⟨[], by simp⟩

/-- Inside a fence the buffer is non-empty and is a suffix of the lines
consumed so far (the raw lines from the most recent unclosed opener). -/
theorem foldl_stepLine_fence_buf (ls : List (List Char)) (s : PState)
    (hs : s.in_fence = true → s.buf ≠ [])
    (hs0 : s.in_fence = false → s.buf = []) :
    (ls.foldl stepLine s).in_fence = true →
      (ls.foldl stepLine s).buf ≠ [] ∧
      ∃ pre, s.buf ++ ls = pre ++ (ls.foldl stepLine s).buf := by
  induction ls generalizing s with
  | nil =>
    intro hf
    exact ⟨hs hf, [], by simp⟩
  | cons l rest ih =>
    rw [List.foldl_cons]
    intro hf
    obtain ⟨h1, pre', h2⟩ :=
      ih (stepLine s l) (stepLine_buf_nonempty s l hs) (stepLine_buf_empty s l hs0) hf
    obtain ⟨q, hq⟩ := stepLine_buf_suffix s l hs0
    refine ⟨h1, q ++ pre', ?_⟩
    calc s.buf ++ l :: rest = (s.buf ++ [l]) ++ rest := by simp
    _ = (q ++ (stepLine s l).buf) ++ rest := by rw [hq]
    _ = q ++ ((stepLine s l).buf ++ rest) := by rw [List.append_assoc]
    _ = q ++ (pre' ++ (List.foldl stepLine (stepLine s l) rest).buf) := by rw [h2]
    _ = (q ++ pre') ++ (List.foldl stepLine (stepLine s l) rest).buf := by
      rw [List.append_assoc]

/-- Placeholder-index bookkeeping: every stored placeholder index is below
the running counter, and while a fence is open the pending key is the
counter's predecessor and is strictly above every stored index. -/
theorem stepLine_keys (s : PState) (l : List Char)
    (h1 : s.in_fence = false → ∀ e ∈ s.blocks, e.1 < s.idx)
    (h2 : s.in_fence = true →
      s.key = some (s.idx - 1) ∧ 1 ≤ s.idx ∧ ∀ e ∈ s.blocks, e.1 < s.idx - 1) :
    ((stepLine s l).in_fence = false →
      ∀ e ∈ (stepLine s l).blocks, e.1 < (stepLine s l).idx) ∧
    ((stepLine s l).in_fence = true →
      (stepLine s l).key = some ((stepLine s l).idx - 1) ∧ 1 ≤ (stepLine s l).idx ∧
      ∀ e ∈ (stepLine s l).blocks, e.1 < (stepLine s l).idx - 1) := by
  unfold stepLine
  split
  · rename_i hsf
    have hb := h1 hsf
    split
    · refine ⟨fun h => by simp at h,
        fun _ => ⟨by simp, by show 1 ≤ s.idx + 1; omega, ?_⟩⟩
      intro e he
      have := hb e he
      show e.1 < s.idx + 1 - 1
      omega
    · exact ⟨fun _ => hb, fun h => by simp [hsf] at h⟩
  · rename_i hsf
    obtain ⟨hk, hi, he⟩ := h2 (by simpa using hsf)
    split
    · refine ⟨fun _ => ?_, fun h => by simp at h⟩
      intro e hee
      show e.1 < s.idx
      replace hee : e ∈ s.blocks ++ [(s.key.getD 0, joinAll (s.buf ++ [l]))] := hee
      simp only [List.mem_append, List.mem_singleton] at hee
      rcases hee with hee | hee
      · have := he e hee
        omega
      · rw [hee]
        show s.key.getD 0 < s.idx
        rw [hk]
        simp only [Option.getD_some]
        omega
    · exact ⟨fun h => by simp [hsf] at h, fun _ => ⟨hk, hi, he⟩⟩

theorem foldl_stepLine_keys (ls : List (List Char)) (s : PState)
    (h1 : s.in_fence = false → ∀ e ∈ s.blocks, e.1 < s.idx)
    (h2 : s.in_fence = true →
      s.key = some (s.idx - 1) ∧ 1 ≤ s.idx ∧ ∀ e ∈ s.blocks, e.1 < s.idx - 1) :
    ((ls.foldl stepLine s).in_fence = false →
      ∀ e ∈ (ls.foldl stepLine s).blocks, e.1 < (ls.foldl stepLine s).idx) ∧
    ((ls.foldl stepLine s).in_fence = true →
      (ls.foldl stepLine s).key = some ((ls.foldl stepLine s).idx - 1) ∧
      1 ≤ (ls.foldl stepLine s).idx ∧
      ∀ e ∈ (ls.foldl stepLine s).blocks, e.1 < (ls.foldl stepLine s).idx - 1) := by
  induction ls generalizing s with
  | nil => exact ⟨h1, h2⟩
  | cons l rest ih =>
    rw [List.foldl_cons]
    obtain ⟨g1, g2⟩ := stepLine_keys s l h1 h2
    exact ih _ g1 g2

/-- C3: if the document ends while a fence is still open, the masked text
is the emitted output followed by the buffered raw lines unchanged, the
buffer is a non-empty suffix of the document's lines (the unterminated
fence region), and no placeholder entry was stored under the open fence's
pending key. -/
theorem unterminated_fence_left_raw (d : List Char)
    (h : ((splitlinesKeep d).foldl stepLine initPState).in_fence = true) :
    (protect_fenced_code d).1 =
      joinAll ((splitlinesKeep d).foldl stepLine initPState).out ++
        joinAll ((splitlinesKeep d).foldl stepLine initPState).buf ∧
    ((splitlinesKeep d).foldl stepLine initPState).buf ≠ [] ∧
    (∃ pre, splitlinesKeep d =
      pre ++ ((splitlinesKeep d).foldl stepLine initPState).buf) ∧
    (∀ e ∈ ((splitlinesKeep d).foldl stepLine initPState).blocks,
      some e.1 ≠ ((splitlinesKeep d).foldl stepLine initPState).key) := by
  obtain ⟨h1, pre, h2⟩ := foldl_stepLine_fence_buf (splitlinesKeep d) initPState
    (fun hh => by simp [initPState] at hh) (fun _ => rfl) h
  obtain ⟨k1, k2⟩ := foldl_stepLine_keys (splitlinesKeep d) initPState
    (fun _ => by simp [initPState]) (fun hh => by simp [initPState] at hh)
  obtain ⟨hkey, hidx, hent⟩ := k2 h
  refine ⟨?_, h1, ⟨pre, by simpa using h2⟩, ?_⟩
  · unfold protect_fenced_code
    simp only
    rw [if_pos (by simp [h, List.isEmpty_iff, h1]), joinAll_append]
  · intro e he
    rw [hkey]
    have := hent e he
    simp only [ne_eq, Option.some.injEq]
    omega

/-- C3, witness at a concrete document ending inside an open fence. -/
theorem unterminated_fence_left_raw_witness :
    (((splitlinesKeep (strChars "text\n```python\nx = 1\n")).foldl stepLine
        initPState).in_fence = true) ∧
    (protect_fenced_code (strChars "text\n```python\nx = 1\n")).1 =
      joinAll ((splitlinesKeep (strChars "text\n```python\nx = 1\n")).foldl stepLine
        initPState).out ++
      joinAll ((splitlinesKeep (strChars "text\n```python\nx = 1\n")).foldl stepLine
        initPState).buf :=
  ⟨by decide, (unterminated_fence_left_raw (strChars "text\n```python\nx = 1\n")
    (by decide)).1⟩

/-!
## Claim C6 (cache idempotence)
-/

theorem lookup_append_of_none {α β : Type} [BEq α] (l₁ l₂ : List (α × β)) (k : α)
    (h : List.lookup k l₁ = none) :
    List.lookup k (l₁ ++ l₂) = List.lookup k l₂ := by
  induction l₁ with
  | nil => rfl
  | cons p t ih =>
    obtain ⟨a, b⟩ := p
    cases hkp : k == a with
    | true => simp [List.lookup, hkp] at h
    | false =>
      simp only [List.cons_append, List.lookup, hkp] at h ⊢
      exact ih h

theorem lookup_append_of_some {α β : Type} [BEq α] (l₁ l₂ : List (α × β)) (k : α) (v : β)
    (h : List.lookup k l₁ = some v) :
    List.lookup k (l₁ ++ l₂) = some v := by
  induction l₁ with
  | nil => simp [List.lookup] at h
  | cons p t ih =>
    obtain ⟨a, b⟩ := p
    cases hkp : k == a with
    | true =>
      simp only [List.lookup, hkp] at h
      simp only [List.cons_append, List.lookup, hkp]
      exact h
    | false =>
      simp only [List.cons_append, List.lookup, hkp] at h ⊢
      exact ih h

/-- C6: for a pair not yet cached, the first call invokes the renderer
exactly once, stores the data URI, and the second call on the same pair
returns the identical string with the state unchanged (no further renderer
invocation); cache entries present beforehand are never evicted or
overwritten. -/
theorem tex_cache_idempotent {ε : Type} (render : List Char → Nat → Except ε (List Nat))
    (st : RState) (tex : List Char) (fs : Nat) (svg : List Nat)
    (hmiss : List.lookup (tex, fs) st.cache = none)
    (hok : render tex fs = .ok svg) :
    tex_to_svg_data_uri render st tex fs =
      .ok (dataUri svg, ⟨st.cache ++ [((tex, fs), dataUri svg)], st.calls ++ [(tex, fs)]⟩) ∧
    tex_to_svg_data_uri render
        ⟨st.cache ++ [((tex, fs), dataUri svg)], st.calls ++ [(tex, fs)]⟩ tex fs =
      .ok (dataUri svg, ⟨st.cache ++ [((tex, fs), dataUri svg)], st.calls ++ [(tex, fs)]⟩) ∧
    (∀ k v, List.lookup k st.cache = some v →
      List.lookup k (st.cache ++ [((tex, fs), dataUri svg)]) = some v) := by
  refine ⟨?_, ?_, ?_⟩
  · unfold tex_to_svg_data_uri
    rw [hmiss, hok]
    rfl
  · unfold tex_to_svg_data_uri
    simp only
    rw [lookup_append_of_none _ _ _ hmiss]
    simp [List.lookup]
  · intro k v hv
    exact lookup_append_of_some _ _ _ _ hv

/-- C6, witness at a concrete renderer, expression and empty cache. -/
theorem tex_cache_idempotent_witness :
    (List.lookup (strChars "x", 12) (RState.mk [] []).cache = none) ∧
    ((fun _ _ => Except.ok [1, 2] : List Char → Nat → Except Unit (List Nat))
        (strChars "x") 12 = .ok [1, 2]) ∧
    tex_to_svg_data_uri (fun _ _ => Except.ok [1, 2] : List Char → Nat → Except Unit (List Nat))
        (RState.mk [] []) (strChars "x") 12 =
      .ok (dataUri [1, 2],
        ⟨[((strChars "x", 12), dataUri [1, 2])], [(strChars "x", 12)]⟩) :=
  ⟨by decide, rfl,
    (tex_cache_idempotent (fun _ _ => Except.ok [1, 2]) (RState.mk [] [])
      (strChars "x") 12 [1, 2] (by decide) rfl).1⟩

/-!
## No-dollar texts are untouched by the math passes
-/

theorem getD_ne {α : Type} (l : List α) (d : α) (n : Nat) (x : α)
    (hl : ∀ c ∈ l, c ≠ x) (hd : d ≠ x) : l.getD n d ≠ x := by
  induction l generalizing n with
  | nil => simpa [List.getD] using hd
  | cons a t ih =>
    cases n with
    | zero => simpa [List.getD] using hl a (by simp)
    | succ m => simpa [List.getD] using ih m (fun c hc => hl c (by simp [hc]))

theorem b64Char_ne_dollar (n : Nat) : b64Char n ≠ '$' :=
  getD_ne _ _ _ _ (by decide) (by decide)

theorem dollar_not_mem_base64 (svg : List Nat) : '$' ∉ base64Encode svg := by
  induction svg using base64Encode.induct with
  | case1 => simp [base64Encode]
  | case2 a =>
    intro h
    replace h : '$' ∈ [b64Char (a / 4), b64Char (a % 4 * 16), '=', '='] := h
    simp only [List.mem_cons, List.not_mem_nil, or_false] at h
    rcases h with h | h | h | h
    · exact b64Char_ne_dollar _ h.symm
    · exact b64Char_ne_dollar _ h.symm
    · exact absurd h (by decide)
    · exact absurd h (by decide)
  | case3 a b =>
    intro h
    replace h : '$' ∈ [b64Char (a / 4), b64Char (a % 4 * 16 + b / 16),
      b64Char (b % 16 * 4), '='] := h
    simp only [List.mem_cons, List.not_mem_nil, or_false] at h
    rcases h with h | h | h | h
    · exact b64Char_ne_dollar _ h.symm
    · exact b64Char_ne_dollar _ h.symm
    · exact b64Char_ne_dollar _ h.symm
    · exact absurd h (by decide)
  | case4 a b c rest ih =>
    intro h
    replace h : '$' ∈ [b64Char (a / 4), b64Char (a % 4 * 16 + b / 16),
      b64Char (b % 16 * 4 + c / 64), b64Char (c % 64)] ++ base64Encode rest := h
    rcases List.mem_append.mp h with h | h
    · simp only [List.mem_cons, List.not_mem_nil, or_false] at h
      rcases h with h | h | h | h <;> exact b64Char_ne_dollar _ h.symm
    · exact ih h

theorem dollar_not_mem_dataUri (svg : List Nat) : '$' ∉ dataUri svg := by
  intro h
  unfold dataUri at h
  rcases List.mem_append.mp h with h | h
  · exact absurd h (by decide)
  · exact dollar_not_mem_base64 svg h

/-- The inline pass leaves any text without an inline delimiter unchanged
and makes no renderer call, for every fuel, state and look-behind. -/
theorem inlineSubGo_id {ε : Type} (render : List Char → Nat → Except ε (List Nat))
    (fuel : Nat) (st : RState) (prev : Option Char) (cs : List Char) (h : '$' ∉ cs) :
    inlineSubGo render fuel st prev cs = .ok (cs, st) := by
  induction fuel, st, prev, cs using inlineSubGo.induct render with
  | case1 => rfl
  | case2 fuel st prev rest hc ih => simp at h
  | case3 fuel st prev rest hc content rest' hfc ih => simp at h
  | case4 fuel st prev rest hc hfc ih => simp at h
  | case5 fuel st prev c rest hc ih =>
    have hrest : '$' ∉ rest := fun hh => h (List.mem_cons_of_mem _ hh)
    simp only [inlineSubGo]
    rw [ih hrest]
    rfl
  | case6 fuel st prev => rfl

/-- The block pass leaves any text without a math delimiter unchanged and
makes no renderer call, for every fuel and state. -/
theorem blockSubGo_id {ε : Type} (render : List Char → Nat → Except ε (List Nat))
    (fuel : Nat) (st : RState) (cs : List Char) (h : '$' ∉ cs) :
    blockSubGo render fuel st cs = .ok (cs, st) := by
  induction fuel, st, cs using blockSubGo.induct render with
  | case1 => rfl
  | case2 fuel st rest content rest' hfc ih => simp at h
  | case3 fuel st rest hfc ih => simp at h
  | case4 fuel st c rest hc ih =>
    have hrest : '$' ∉ rest := fun hh => h (List.mem_cons_of_mem _ hh)
    simp only [blockSubGo]
    rw [ih hrest]
    rfl
  | case5 fuel st => rfl

/-!
## Claim C5 (escaped dollars)
-/

/-- C5: on the input with backslash-escaped single dollars the pipeline
performs no substitution at all: the output text equals the input and the
state (cache and renderer-invocation log) is unchanged, for every renderer
and every starting state. -/
theorem escaped_dollar_no_substitution {ε : Type}
    (render : List Char → Nat → Except ε (List Nat)) (st : RState) :
    render_math_in_markdown render st (strChars "\\$5 and \\$10") =
      .ok (strChars "\\$5 and \\$10", st) := rfl

/-!
## Claim C2 (code immunity)
-/

/-- C2, counterexample: the claim that a document that is exactly one
fenced block containing an inline math span is returned identical to the
input is false: the pipeline appends one extra newline after the restored
fence. -/
theorem code_immunity_counterexample :
    (render_math_in_markdown
        (fun _ _ => Except.ok ([] : List Nat) : List Char → Nat → Except Unit (List Nat))
        (RState.mk [] []) (strChars "```\n$x$\n```")).map Prod.fst ≠
      Except.ok (strChars "```\n$x$\n```") := by
  decide

/-- C2, amended: on a document that is exactly one fenced block containing
`$x$`, the pipeline returns the input followed by one extra newline; the
math delimiters inside the fence are never substituted and the renderer is
never invoked (the state is unchanged), for every renderer and state. -/
theorem code_immunity_amended {ε : Type}
    (render : List Char → Nat → Except ε (List Nat)) (st : RState) :
    render_math_in_markdown render st (strChars "```\n$x$\n```") =
      .ok (strChars "```\n$x$\n```\n", st) := rfl

theorem not_mem_append {α : Type} {a : α} {l₁ l₂ : List α}
    (h1 : a ∉ l₁) (h2 : a ∉ l₂) : a ∉ l₁ ++ l₂ :=
  fun h => (List.mem_append.mp h).elim h1 h2

theorem dollar_not_mem_repl_block (tex uri : List Char)
    (ht : '$' ∉ htmlEscape tex) (hu : '$' ∉ uri) :
    '$' ∉ repl_block tex uri := by
  unfold repl_block
  exact not_mem_append (not_mem_append (not_mem_append (not_mem_append
    (by decide) hu) (by decide)) ht) (by decide)

/-!
## Claim C4 (block before inline on the input with double dollars)
-/

/-- C4: on input `$$a+b$$` (with an empty starting cache) the pipeline
produces exactly the single div-wrapped block-level image fragment for the
expression `a+b` rendered at the display size 16, and the renderer is
invoked exactly once, at the display size only — no inline substitution
takes place. -/
theorem block_precedence_single_image {ε : Type}
    (render : List Char → Nat → Except ε (List Nat)) (svg : List Nat)
    (hr : render (strChars "a+b") 16 = .ok svg) :
    render_math_in_markdown render (RState.mk [] []) (strChars "$$a+b$$") =
      .ok (repl_block (strChars "a+b") (dataUri svg),
        RState.mk [((strChars "a+b", 16), dataUri svg)] [(strChars "a+b", 16)]) := by
  have hnd : '$' ∉ repl_block (strChars "a+b") (dataUri svg) ++ ([] : List Char) :=
    not_mem_append
      (dollar_not_mem_repl_block _ _ (by decide) (dollar_not_mem_dataUri svg))
      (by decide)
  have hbl : blockSub render (RState.mk [] []) (strChars "$$a+b$$") =
      .ok (repl_block (strChars "a+b") (dataUri svg) ++ [],
        RState.mk [((strChars "a+b", 16), dataUri svg)] [(strChars "a+b", 16)]) := by
    have key : blockSub render (RState.mk [] []) (strChars "$$a+b$$") =
        ((render (strChars "a+b") 16).bind (fun svg' =>
          Except.ok (dataUri svg', RState.mk [((strChars "a+b", 16), dataUri svg')]
            [(strChars "a+b", 16)]))).bind (fun p =>
          (blockSubGo render 7 p.2 []).bind (fun q =>
            Except.ok (repl_block (strChars "a+b") p.1 ++ q.1, q.2))) := rfl
    rw [key, hr]
    rfl
  have hin : inlineSub render
      (RState.mk [((strChars "a+b", 16), dataUri svg)] [(strChars "a+b", 16)])
      (repl_block (strChars "a+b") (dataUri svg) ++ []) =
      .ok (repl_block (strChars "a+b") (dataUri svg) ++ [],
        RState.mk [((strChars "a+b", 16), dataUri svg)] [(strChars "a+b", 16)]) :=
    inlineSubGo_id render _ _ none _ hnd
  have hpipe : render_math_in_markdown render (RState.mk [] []) (strChars "$$a+b$$") =
      (blockSub render (RState.mk [] []) (strChars "$$a+b$$")).bind (fun b =>
        (inlineSub render b.2 b.1).bind (fun i =>
          Except.ok (restore_fenced_code i.1 [], i.2))) := rfl
  rw [hpipe, hbl]
  simp only [Except.bind]
  rw [hin]
  simp only [Except.bind]
  rw [show restore_fenced_code (repl_block (strChars "a+b") (dataUri svg) ++ []) [] =
    repl_block (strChars "a+b") (dataUri svg) ++ [] from rfl, List.append_nil]

/-- C4, witness at a concrete renderer. -/
theorem block_precedence_single_image_witness :
    ((fun _ _ => Except.ok [0] : List Char → Nat → Except Unit (List Nat))
      (strChars "a+b") 16 = .ok [0]) ∧
    render_math_in_markdown
        (fun _ _ => Except.ok [0] : List Char → Nat → Except Unit (List Nat))
        (RState.mk [] []) (strChars "$$a+b$$") =
      .ok (repl_block (strChars "a+b") (dataUri [0]),
        RState.mk [((strChars "a+b", 16), dataUri [0])] [(strChars "a+b", 16)]) :=
  ⟨rfl, block_precedence_single_image _ [0] rfl⟩

/-!
## Claim C9 (multi-line block math)
-/

/-- C9: the input consisting of `$$`, a newline, `\sum_{i=1}^n i`, a
newline and `$$` is recognised as exactly one block math span spanning the
newlines; the leading and trailing whitespace is stripped from the
expression, which is rendered once at the fixed display size 16, and the
output is the single block-level fragment for it. -/
theorem multiline_block_math {ε : Type}
    (render : List Char → Nat → Except ε (List Nat)) (svg : List Nat)
    (hr : render (strChars "\\sum_{i=1}^n i") 16 = .ok svg) :
    render_math_in_markdown render (RState.mk [] [])
        (strChars "$$\n\\sum_{i=1}^n i\n$$") =
      .ok (repl_block (strChars "\\sum_{i=1}^n i") (dataUri svg),
        RState.mk [((strChars "\\sum_{i=1}^n i", 16), dataUri svg)]
          [(strChars "\\sum_{i=1}^n i", 16)]) := by
  have hnd : '$' ∉ repl_block (strChars "\\sum_{i=1}^n i") (dataUri svg) ++
      ([] : List Char) :=
    not_mem_append
      (dollar_not_mem_repl_block _ _ (by decide) (dollar_not_mem_dataUri svg))
      (by decide)
  have hbl : blockSub render (RState.mk [] []) (strChars "$$\n\\sum_{i=1}^n i\n$$") =
      .ok (repl_block (strChars "\\sum_{i=1}^n i") (dataUri svg) ++ [],
        RState.mk [((strChars "\\sum_{i=1}^n i", 16), dataUri svg)]
          [(strChars "\\sum_{i=1}^n i", 16)]) := by
    have key : blockSub render (RState.mk [] []) (strChars "$$\n\\sum_{i=1}^n i\n$$") =
        ((render (strChars "\\sum_{i=1}^n i") 16).bind (fun svg' =>
          Except.ok (dataUri svg',
            RState.mk [((strChars "\\sum_{i=1}^n i", 16), dataUri svg')]
              [(strChars "\\sum_{i=1}^n i", 16)]))).bind (fun p =>
          (blockSubGo render 20 p.2 []).bind (fun q =>
            Except.ok (repl_block (strChars "\\sum_{i=1}^n i") p.1 ++ q.1, q.2))) := rfl
    rw [key, hr]
    rfl
  have hin : inlineSub render
      (RState.mk [((strChars "\\sum_{i=1}^n i", 16), dataUri svg)]
        [(strChars "\\sum_{i=1}^n i", 16)])
      (repl_block (strChars "\\sum_{i=1}^n i") (dataUri svg) ++ []) =
      .ok (repl_block (strChars "\\sum_{i=1}^n i") (dataUri svg) ++ [],
        RState.mk [((strChars "\\sum_{i=1}^n i", 16), dataUri svg)]
          [(strChars "\\sum_{i=1}^n i", 16)]) :=
    inlineSubGo_id render _ _ none _ hnd
  have hpipe : render_math_in_markdown render (RState.mk [] [])
      (strChars "$$\n\\sum_{i=1}^n i\n$$") =
      (blockSub render (RState.mk [] []) (strChars "$$\n\\sum_{i=1}^n i\n$$")).bind
        (fun b => (inlineSub render b.2 b.1).bind (fun i =>
          Except.ok (restore_fenced_code i.1 [], i.2))) := rfl
  rw [hpipe, hbl]
  simp only [Except.bind]
  rw [hin]
  simp only [Except.bind]
  rw [show restore_fenced_code
      (repl_block (strChars "\\sum_{i=1}^n i") (dataUri svg) ++ []) [] =
    repl_block (strChars "\\sum_{i=1}^n i") (dataUri svg) ++ [] from rfl,
    List.append_nil]

/-- C9, witness at a concrete renderer. -/
theorem multiline_block_math_witness :
    ((fun _ _ => Except.ok [5] : List Char → Nat → Except Unit (List Nat))
      (strChars "\\sum_{i=1}^n i") 16 = .ok [5]) ∧
    render_math_in_markdown
        (fun _ _ => Except.ok [5] : List Char → Nat → Except Unit (List Nat))
        (RState.mk [] []) (strChars "$$\n\\sum_{i=1}^n i\n$$") =
      .ok (repl_block (strChars "\\sum_{i=1}^n i") (dataUri [5]),
        RState.mk [((strChars "\\sum_{i=1}^n i", 16), dataUri [5])]
          [(strChars "\\sum_{i=1}^n i", 16)]) :=
  ⟨rfl, multiline_block_math _ [5] rfl⟩

/-!
## Step equations for the substitution scanners
-/

theorem except_bind_ok {ε α β : Type} (a : α) (f : α → Except ε β) :
    (Except.ok a : Except ε α).bind f = f a := rfl

theorem except_bind_error {ε α β : Type} (e : ε) (f : α → Except ε β) :
    (Except.error e : Except ε α).bind f = Except.error e := rfl

theorem tex_to_svg_hit {ε : Type} (render : List Char → Nat → Except ε (List Nat))
    (st : RState) (tex : List Char) (fs : Nat) (uri : List Char)
    (h : List.lookup (tex, fs) st.cache = some uri) :
    tex_to_svg_data_uri render st tex fs = .ok (uri, st) := by
  unfold tex_to_svg_data_uri
  rw [h]

theorem tex_to_svg_miss {ε : Type} (render : List Char → Nat → Except ε (List Nat))
    (st : RState) (tex : List Char) (fs : Nat)
    (h : List.lookup (tex, fs) st.cache = none) :
    tex_to_svg_data_uri render st tex fs =
      (render tex fs).bind (fun svg =>
        Except.ok (dataUri svg, ⟨st.cache ++ [((tex, fs), dataUri svg)],
          st.calls ++ [(tex, fs)]⟩)) := by
  unfold tex_to_svg_data_uri
  rw [h]
  rfl

theorem blockSubGo_match_eq {ε : Type} (render : List Char → Nat → Except ε (List Nat))
    (fuel : Nat) (st : RState) {rest content rest' : List Char}
    (hfc : findClose rest = some (content, rest')) :
    blockSubGo render (fuel + 1) st ('$' :: '$' :: rest) =
      (tex_to_svg_data_uri render st (pyStrip content) 16).bind (fun p =>
        (blockSubGo render fuel p.2 rest').bind (fun q =>
          Except.ok (repl_block (pyStrip content) p.1 ++ q.1, q.2))) := by
  simp only [blockSubGo, hfc]
  rfl

theorem blockSubGo_nomatch_eq {ε : Type} (render : List Char → Nat → Except ε (List Nat))
    (fuel : Nat) (st : RState) {rest : List Char}
    (hfc : findClose rest = none) :
    blockSubGo render (fuel + 1) st ('$' :: '$' :: rest) =
      (blockSubGo render fuel st ('$' :: rest)).bind (fun q =>
        Except.ok ('$' :: q.1, q.2)) := by
  simp only [blockSubGo, hfc]
  rfl

theorem blockSubGo_plain_eq {ε : Type} (render : List Char → Nat → Except ε (List Nat))
    (fuel : Nat) (st : RState) {c : Char} {rest : List Char}
    (hc : ∀ r, c = '$' → rest = '$' :: r → False) :
    blockSubGo render (fuel + 1) st (c :: rest) =
      (blockSubGo render fuel st rest).bind (fun q =>
        Except.ok (c :: q.1, q.2)) := by
  simp only [blockSubGo]
  rfl

theorem inlineSubGo_skip_eq {ε : Type} (render : List Char → Nat → Except ε (List Nat))
    (fuel : Nat) (st : RState) {prev : Option Char} {rest : List Char}
    (hc : (decide (prev = some '\\') || decide (List.take 1 rest = ['$'])) = true) :
    inlineSubGo render (fuel + 1) st prev ('$' :: rest) =
      (inlineSubGo render fuel st (some '$') rest).bind (fun q =>
        Except.ok ('$' :: q.1, q.2)) := by
  simp only [inlineSubGo, hc]
  rfl

theorem inlineSubGo_match_eq {ε : Type} (render : List Char → Nat → Except ε (List Nat))
    (fuel : Nat) (st : RState) {prev : Option Char} {rest content rest' : List Char}
    (hc : ¬(decide (prev = some '\\') || decide (List.take 1 rest = ['$'])) = true)
    (hfc : findInlineClose rest = some (content, rest')) :
    inlineSubGo render (fuel + 1) st prev ('$' :: rest) =
      (tex_to_svg_data_uri render st (pyStrip content) 12).bind (fun p =>
        (inlineSubGo render fuel p.2 (some '$') rest').bind (fun q =>
          Except.ok (repl_inline (pyStrip content) p.1 ++ q.1, q.2))) := by
  simp only [inlineSubGo, hfc, Bool.not_eq_true] at *
  simp only [hc]
  rfl

theorem inlineSubGo_nomatch_eq {ε : Type} (render : List Char → Nat → Except ε (List Nat))
    (fuel : Nat) (st : RState) {prev : Option Char} {rest : List Char}
    (hc : ¬(decide (prev = some '\\') || decide (List.take 1 rest = ['$'])) = true)
    (hfc : findInlineClose rest = none) :
    inlineSubGo render (fuel + 1) st prev ('$' :: rest) =
      (inlineSubGo render fuel st (some '$') rest).bind (fun q =>
        Except.ok ('$' :: q.1, q.2)) := by
  simp only [inlineSubGo, hfc, Bool.not_eq_true] at *
  simp only [hc]
  rfl

theorem inlineSubGo_plain_eq {ε : Type} (render : List Char → Nat → Except ε (List Nat))
    (fuel : Nat) (st : RState) {prev : Option Char} {c : Char} {rest : List Char}
    (hc : c = '$' → False) :
    inlineSubGo render (fuel + 1) st prev (c :: rest) =
      (inlineSubGo render fuel st (some c) rest).bind (fun q =>
        Except.ok (c :: q.1, q.2)) := by
  simp only [inlineSubGo]
  rfl

/-!
## Claim C7 (renderer failures propagate)
-/

/-- If some block span of the scanned text has an uncached expression on
which the renderer raises, the block pass fails with a renderer error. -/
theorem blockSubGo_error_of_span {ε : Type} (render : List Char → Nat → Except ε (List Nat))
    (fuel : Nat) (st : RState) (cs : List Char)
    (h : ∃ tex ∈ blockSpansGo fuel cs,
      List.lookup (pyStrip tex, 16) st.cache = none ∧
      ∃ e, render (pyStrip tex) 16 = .error e) :
    ∃ e, blockSubGo render fuel st cs = .error e ∧
      ∃ t n, render t n = .error e := by
  induction fuel, st, cs using blockSubGo.induct render with
  | case1 st cs =>
    obtain ⟨tex, htex, _⟩ := h
    simp [blockSpansGo] at htex
  | case2 fuel st rest content rest' hfc ih =>
    simp only [blockSpansGo, hfc, List.mem_cons] at h
    obtain ⟨tex, htex, hlk, e, he⟩ := h
    rcases htex with rfl | htex
    · refine ⟨e, ?_, pyStrip tex, 16, he⟩
      rw [blockSubGo_match_eq render fuel st hfc, tex_to_svg_miss render st _ 16 hlk,
        he, except_bind_error, except_bind_error]
    · cases hcache : List.lookup (pyStrip content, 16) st.cache with
      | some uri =>
        obtain ⟨e', he', hwit⟩ := ih st ⟨tex, htex, hlk, e, he⟩
        refine ⟨e', ?_, hwit⟩
        rw [blockSubGo_match_eq render fuel st hfc,
          tex_to_svg_hit render st _ 16 uri hcache, except_bind_ok, he',
          except_bind_error]
      | none =>
        cases hrc : render (pyStrip content) 16 with
        | error e2 =>
          refine ⟨e2, ?_, pyStrip content, 16, hrc⟩
          rw [blockSubGo_match_eq render fuel st hfc,
            tex_to_svg_miss render st _ 16 hcache, hrc, except_bind_error,
            except_bind_error]
        | ok svg =>
          have hne : ((pyStrip tex, 16) : List Char × Nat) ≠ (pyStrip content, 16) := by
            intro hcontra
            have : pyStrip tex = pyStrip content := (Prod.mk.injEq .. ▸ hcontra : _ ∧ _).1
            rw [this, hrc] at he
            exact Except.noConfusion he
          have hlk' : List.lookup (pyStrip tex, 16)
              (st.cache ++ [((pyStrip content, 16), dataUri svg)]) = none := by
            rw [lookup_append_of_none _ _ _ hlk]
            have hbf : ((pyStrip tex, 16) == ((pyStrip content, 16) : List Char × Nat)) =
                false := beq_eq_false_iff_ne.mpr hne
            simp [List.lookup, hbf]
          obtain ⟨e', he', hwit⟩ := ih
            ⟨st.cache ++ [((pyStrip content, 16), dataUri svg)],
              st.calls ++ [(pyStrip content, 16)]⟩
            ⟨tex, htex, hlk', e, he⟩
          refine ⟨e', ?_, hwit⟩
          rw [blockSubGo_match_eq render fuel st hfc,
            tex_to_svg_miss render st _ 16 hcache, hrc, except_bind_ok,
            except_bind_ok, he', except_bind_error]
  | case3 fuel st rest hfc ih =>
    simp only [blockSpansGo, hfc] at h
    obtain ⟨e', he', hwit⟩ := ih h
    refine ⟨e', ?_, hwit⟩
    rw [blockSubGo_nomatch_eq render fuel st hfc, he', except_bind_error]
  | case4 fuel st c rest hc ih =>
    have h' : ∃ tex ∈ blockSpansGo fuel rest,
        List.lookup (pyStrip tex, 16) st.cache = none ∧
        ∃ e, render (pyStrip tex) 16 = .error e := by
      obtain ⟨tex, htex, rest2⟩ := h
      refine ⟨tex, ?_, rest2⟩
      simpa only [blockSpansGo] using htex
    obtain ⟨e', he', hwit⟩ := ih h'
    refine ⟨e', ?_, hwit⟩
    rw [blockSubGo_plain_eq render fuel st hc, he', except_bind_error]
  | case5 fuel st =>
    obtain ⟨tex, htex, _⟩ := h
    simp [blockSpansGo] at htex

theorem inlineSpansGo_skip_eq (fuel : Nat) {prev : Option Char} {rest : List Char}
    (hc : (decide (prev = some '\\') || decide (List.take 1 rest = ['$'])) = true) :
    inlineSpansGo (fuel + 1) prev ('$' :: rest) = inlineSpansGo fuel (some '$') rest := by
  simp [inlineSpansGo, hc]

theorem inlineSpansGo_match_eq (fuel : Nat) {prev : Option Char}
    {rest content rest' : List Char}
    (hc : ¬(decide (prev = some '\\') || decide (List.take 1 rest = ['$'])) = true)
    (hfc : findInlineClose rest = some (content, rest')) :
    inlineSpansGo (fuel + 1) prev ('$' :: rest) =
      content :: inlineSpansGo fuel (some '$') rest' := by
  simp only [inlineSpansGo, Bool.not_eq_true] at *
  simp [hc, hfc]

theorem inlineSpansGo_nomatch_eq (fuel : Nat) {prev : Option Char} {rest : List Char}
    (hc : ¬(decide (prev = some '\\') || decide (List.take 1 rest = ['$'])) = true)
    (hfc : findInlineClose rest = none) :
    inlineSpansGo (fuel + 1) prev ('$' :: rest) = inlineSpansGo fuel (some '$') rest := by
  simp only [inlineSpansGo, Bool.not_eq_true] at *
  simp [hc, hfc]

theorem inlineSpansGo_plain_eq (fuel : Nat) {prev : Option Char} {c : Char}
    {rest : List Char} (hcd : c = '$' → False) :
    inlineSpansGo (fuel + 1) prev (c :: rest) = inlineSpansGo fuel (some c) rest := by
  simp only [inlineSpansGo]

/-- If some inline span of the scanned text has an uncached expression on
which the renderer raises, the inline pass fails with a renderer error. -/
theorem inlineSubGo_error_of_span {ε : Type} (render : List Char → Nat → Except ε (List Nat))
    (fuel : Nat) (st : RState) (prev : Option Char) (cs : List Char)
    (h : ∃ tex ∈ inlineSpansGo fuel prev cs,
      List.lookup (pyStrip tex, 12) st.cache = none ∧
      ∃ e, render (pyStrip tex) 12 = .error e) :
    ∃ e, inlineSubGo render fuel st prev cs = .error e ∧
      ∃ t n, render t n = .error e := by
  induction fuel, st, prev, cs using inlineSubGo.induct render with
  | case1 st prev cs =>
    obtain ⟨tex, htex, _⟩ := h
    simp [inlineSpansGo] at htex
  | case2 fuel st prev rest hc ih =>
    rw [inlineSpansGo_skip_eq fuel hc] at h
    obtain ⟨e', he', hwit⟩ := ih h
    refine ⟨e', ?_, hwit⟩
    rw [inlineSubGo_skip_eq render fuel st hc, he', except_bind_error]
  | case3 fuel st prev rest hc content rest' hfc ih =>
    rw [inlineSpansGo_match_eq fuel hc hfc] at h
    simp only [List.mem_cons] at h
    obtain ⟨tex, htex, hlk, e, he⟩ := h
    rcases htex with rfl | htex
    · refine ⟨e, ?_, pyStrip tex, 12, he⟩
      rw [inlineSubGo_match_eq render fuel st hc hfc,
        tex_to_svg_miss render st _ 12 hlk, he, except_bind_error, except_bind_error]
    · cases hcache : List.lookup (pyStrip content, 12) st.cache with
      | some uri =>
        obtain ⟨e', he', hwit⟩ := ih st ⟨tex, htex, hlk, e, he⟩
        refine ⟨e', ?_, hwit⟩
        rw [inlineSubGo_match_eq render fuel st hc hfc,
          tex_to_svg_hit render st _ 12 uri hcache, except_bind_ok, he',
          except_bind_error]
      | none =>
        cases hrc : render (pyStrip content) 12 with
        | error e2 =>
          refine ⟨e2, ?_, pyStrip content, 12, hrc⟩
          rw [inlineSubGo_match_eq render fuel st hc hfc,
            tex_to_svg_miss render st _ 12 hcache, hrc, except_bind_error,
            except_bind_error]
        | ok svg =>
          have hne : ((pyStrip tex, 12) : List Char × Nat) ≠ (pyStrip content, 12) := by
            intro hcontra
            have : pyStrip tex = pyStrip content := (Prod.mk.injEq .. ▸ hcontra : _ ∧ _).1
            rw [this, hrc] at he
            exact Except.noConfusion he
          have hlk' : List.lookup (pyStrip tex, 12)
              (st.cache ++ [((pyStrip content, 12), dataUri svg)]) = none := by
            rw [lookup_append_of_none _ _ _ hlk]
            have hbf : ((pyStrip tex, 12) == ((pyStrip content, 12) : List Char × Nat)) =
                false := beq_eq_false_iff_ne.mpr hne
            simp [List.lookup, hbf]
          obtain ⟨e', he', hwit⟩ := ih
            ⟨st.cache ++ [((pyStrip content, 12), dataUri svg)],
              st.calls ++ [(pyStrip content, 12)]⟩
            ⟨tex, htex, hlk', e, he⟩
          refine ⟨e', ?_, hwit⟩
          rw [inlineSubGo_match_eq render fuel st hc hfc,
            tex_to_svg_miss render st _ 12 hcache, hrc, except_bind_ok,
            except_bind_ok, he', except_bind_error]
  | case4 fuel st prev rest hc hfc ih =>
    rw [inlineSpansGo_nomatch_eq fuel hc hfc] at h
    obtain ⟨e', he', hwit⟩ := ih h
    refine ⟨e', ?_, hwit⟩
    rw [inlineSubGo_nomatch_eq render fuel st hc hfc, he', except_bind_error]
  | case5 fuel st prev c rest hcd ih =>
    rw [inlineSpansGo_plain_eq fuel hcd] at h
    obtain ⟨e', he', hwit⟩ := ih h
    refine ⟨e', ?_, hwit⟩
    rw [inlineSubGo_plain_eq render fuel st hcd, he', except_bind_error]
  | case6 fuel st prev =>
    obtain ⟨tex, htex, _⟩ := h
    simp [inlineSpansGo] at htex

/-- C7: if the document has a recognised math span whose (uncached)
expression makes the renderer raise — a block span of the masked text, or
an inline span of the block-pass output — then the pipeline does not catch
the failure: it returns no output document at all, and the error it
propagates to the caller is exactly a renderer error. -/
theorem render_failure_propagates {ε : Type}
    (render : List Char → Nat → Except ε (List Nat)) (st : RState) (d : List Char)
    (h : (∃ tex ∈ blockSpans (protect_fenced_code d).1,
            List.lookup (pyStrip tex, 16) st.cache = none ∧
            ∃ e, render (pyStrip tex) 16 = .error e) ∨
         (∃ b st1, blockSub render st (protect_fenced_code d).1 = .ok (b, st1) ∧
            ∃ tex ∈ inlineSpans b,
              List.lookup (pyStrip tex, 12) st1.cache = none ∧
              ∃ e, render (pyStrip tex) 12 = .error e)) :
    ∃ e, render_math_in_markdown render st d = .error e ∧
      ∃ t n, render t n = .error e := by
  have hpipe : render_math_in_markdown render st d =
      (blockSub render st (protect_fenced_code d).1).bind (fun b =>
        (inlineSub render b.2 b.1).bind (fun i =>
          Except.ok (restore_fenced_code i.1 (protect_fenced_code d).2, i.2))) := rfl
  rcases h with h | ⟨b, st1, hok, htex⟩
  · obtain ⟨e', he', hwit⟩ := blockSubGo_error_of_span render _ st _ h
    refine ⟨e', ?_, hwit⟩
    rw [hpipe]
    rw [show blockSub render st (protect_fenced_code d).1 = .error e' from he',
      except_bind_error]
  · obtain ⟨e', he', hwit⟩ := inlineSubGo_error_of_span render _ st1 none b htex
    refine ⟨e', ?_, hwit⟩
    rw [hpipe, hok, except_bind_ok]
    rw [show inlineSub render st1 b = .error e' from he', except_bind_error]

/-- C7, witness: a renderer that always raises, on a document with one
block math span. -/
theorem render_failure_propagates_witness :
    (∃ tex ∈ blockSpans (protect_fenced_code (strChars "$$x$$")).1,
      List.lookup (pyStrip tex, 16) (RState.mk [] []).cache = none ∧
      ∃ e, (fun _ _ => Except.error 3 : List Char → Nat → Except Nat (List Nat))
        (pyStrip tex) 16 = .error e) ∧
    ∃ e, render_math_in_markdown
        (fun _ _ => Except.error 3 : List Char → Nat → Except Nat (List Nat))
        (RState.mk [] []) (strChars "$$x$$") = .error e ∧
      ∃ t n, (fun _ _ => Except.error 3 : List Char → Nat → Except Nat (List Nat))
        t n = .error e :=
  ⟨⟨strChars "x", by decide, by decide, 3, rfl⟩,
    render_failure_propagates _ (RState.mk [] []) (strChars "$$x$$")
      (Or.inl ⟨strChars "x", by decide, by decide, 3, rfl⟩)⟩

/-!
## Claim C8 (placeholder tokens versus math substitution)
-/

theorem occursIn_append_left (t s x : List Char) (h : occursIn t s) :
    occursIn t (x ++ s) := by
  obtain ⟨l, r, rfl⟩ := h
  exact ⟨x ++ l, r, by simp [List.append_assoc]⟩

theorem occursIn_append_right (t s x : List Char) (h : occursIn t s) :
    occursIn t (s ++ x) := by
  obtain ⟨l, r, rfl⟩ := h
  exact ⟨l, r ++ x, by simp [List.append_assoc]⟩

theorem occursIn_cons (t : List Char) (c : Char) (s : List Char) (h : occursIn t s) :
    occursIn t (c :: s) := by
  obtain ⟨l, r, rfl⟩ := h
  exact ⟨c :: l, r, by simp⟩

theorem occursIn_append_cases (t a b : List Char) (h : occursIn t (a ++ b)) :
    occursIn t a ∨ occursIn t b ∨
    ∃ t1 t2, t = t1 ++ t2 ∧ t1 ≠ [] ∧ t2 ≠ [] ∧
      (∃ l, a = l ++ t1) ∧ (∃ r, b = t2 ++ r) := by
  obtain ⟨l, r, hlr⟩ := h
  rw [List.append_assoc] at hlr
  rcases List.append_eq_append_iff.mp hlr with ⟨x, hx1, hx2⟩ | ⟨y, hy1, hy2⟩
  · exact Or.inr (Or.inl ⟨x, r, by rw [hx2, List.append_assoc]⟩)
  · rcases List.append_eq_append_iff.mp hy2 with ⟨u, hu1, hu2⟩ | ⟨v, hv1, hv2⟩
    · exact Or.inl ⟨l, u, by rw [hy1, hu1, List.append_assoc]⟩
    · rcases eq_or_ne v [] with rfl | hvne
      · rw [List.append_nil] at hv1
        exact Or.inl ⟨l, [], by rw [hy1, ← hv1, List.append_nil]⟩
      · rcases eq_or_ne y [] with rfl | hyne
        · rw [List.nil_append] at hv1
          exact Or.inr (Or.inl ⟨[], r, by rw [hv2, ← hv1, List.nil_append]⟩)
        · exact Or.inr (Or.inr ⟨y, v, hv1, hyne, hvne, ⟨l, hy1⟩, ⟨r, hv2⟩⟩)

/-- A dollar-free non-empty token occurring after a leading `$` occurs in
the tail. -/
theorem occursIn_cons_dollar (t x : List Char) (h : occursIn t ('$' :: x))
    (hd : '$' ∉ t) (hne : t ≠ []) : occursIn t x := by
  rcases occursIn_append_cases t ['$'] x h with h1 | h1 | ⟨t1, t2, ht, h1ne, _, ⟨l, hl⟩, _⟩
  · obtain ⟨l, r, hlr⟩ := h1
    cases l with
    | nil =>
      cases t with
      | nil => exact absurd rfl hne
      | cons c t' =>
        simp only [List.nil_append, List.cons_append, List.cons.injEq] at hlr
        exact absurd (show '$' ∈ c :: t' by rw [hlr.1]; exact List.mem_cons_self c t') hd
    | cons c l' =>
      simp only [List.cons_append, List.cons.injEq] at hlr
      rcases List.append_eq_nil.mp hlr.2.symm with ⟨h2, _⟩
      rcases List.append_eq_nil.mp h2 with ⟨_, h3⟩
      exact absurd h3 hne
  · exact h1
  · cases l with
    | nil =>
      simp only [List.nil_append] at hl
      have h4 : '$' ∈ t1 := hl ▸ List.mem_singleton.mpr rfl
      exact absurd (show '$' ∈ t by rw [ht]; exact List.mem_append_left t2 h4) hd
    | cons c l' =>
      simp only [List.cons_append, List.cons.injEq] at hl
      rcases List.append_eq_nil.mp hl.2.symm with ⟨_, h3⟩
      exact absurd h3 h1ne

/-- A dollar-free non-empty token occurring in `a ++ '$' :: b` occurs
wholly inside `a` or wholly inside `b`. -/
theorem occursIn_mid_dollar (t a b : List Char) (h : occursIn t (a ++ '$' :: b))
    (hd : '$' ∉ t) (hne : t ≠ []) : occursIn t a ∨ occursIn t b := by
  rcases occursIn_append_cases t a ('$' :: b) h with h1 | h1 | ⟨t1, t2, ht, _, h2ne, _, ⟨r, hr⟩⟩
  · exact Or.inl h1
  · exact Or.inr (occursIn_cons_dollar t b h1 hd hne)
  · cases t2 with
    | nil => exact absurd rfl h2ne
    | cons c t2' =>
      simp only [List.cons_append, List.cons.injEq] at hr
      have h4 : '$' ∈ c :: t2' := by rw [← hr.1]; exact List.mem_cons_self '$' t2'
      exact absurd (show '$' ∈ t by rw [ht]; exact List.mem_append_right t1 h4) hd

/-- The lazy search behind `BLOCK_MATH_RE` decomposes its input. -/
theorem findClose_eq (cs content rest' : List Char)
    (h : findClose cs = some (content, rest')) :
    cs = content ++ '$' :: '$' :: rest' := by
  induction cs using findClose.induct generalizing content rest' with
  | case1 => simp [findClose] at h
  | case2 c r =>
    simp only [findClose, Option.some.injEq, Prod.mk.injEq] at h
    rw [← h.1, ← h.2]
    rfl
  | case3 c rest hne ih =>
    simp only [findClose] at h
    cases hfc : findClose rest with
    | none => rw [hfc] at h; simp at h
    | some p =>
      obtain ⟨q1, q2⟩ := p
      rw [hfc] at h
      simp only [Option.map_some', Option.some.injEq, Prod.mk.injEq] at h
      rw [← h.1, ← h.2, ih q1 q2 hfc]
      rfl

/-- The lazy search behind `INLINE_MATH_RE` decomposes its input. -/
theorem findInlineClose_eq (cs content rest' : List Char)
    (h : findInlineClose cs = some (content, rest')) :
    cs = content ++ '$' :: rest' := by
  induction cs generalizing content rest' with
  | nil => simp [findInlineClose] at h
  | cons c rest ih =>
    rw [show findInlineClose (c :: rest) = if c = '\n' then none
        else if rest.take 1 = ['$'] ∧ c ≠ '\\' then some ([c], rest.drop 1)
        else (findInlineClose rest).map (fun p => (c :: p.1, p.2)) from rfl] at h
    by_cases hnl : c = '\n'
    · rw [if_pos hnl] at h
      exact absurd h (by simp)
    · rw [if_neg hnl] at h
      by_cases hcl : rest.take 1 = ['$'] ∧ c ≠ '\\'
      · rw [if_pos hcl] at h
        simp only [Option.some.injEq, Prod.mk.injEq] at h
        have hshape : rest = '$' :: rest.drop 1 := by
          cases rest with
          | nil => simp at hcl
          | cons r1 rrest =>
            obtain ⟨h1, _⟩ := hcl
            simp only [List.take, List.take_zero, List.cons.injEq] at h1
            rw [h1.1]
            simp
        rw [← h.1, ← h.2, List.cons_append, List.nil_append, ← hshape]
      · rw [if_neg hcl] at h
        cases hfc : findInlineClose rest with
        | none => rw [hfc] at h; simp at h
        | some p =>
          obtain ⟨q1, q2⟩ := p
          rw [hfc] at h
          simp only [Option.map_some', Option.some.injEq, Prod.mk.injEq] at h
          rw [← h.1, ← h.2, ih q1 q2 hfc]
          rfl

theorem digitChar_ne_dollar (d : Nat) : digitChar d ≠ '$' := by
  unfold digitChar
  split <;> decide

theorem dollar_not_mem_natDigitsGo (fuel n : Nat) : '$' ∉ natDigitsGo fuel n := by
  induction fuel generalizing n with
  | zero => simp [natDigitsGo]
  | succ f ih =>
    simp only [natDigitsGo]
    split
    · intro h
      simp at h
      exact digitChar_ne_dollar n h.symm
    · intro h
      rcases List.mem_append.mp h with h | h
      · exact ih _ h
      · simp at h
        exact digitChar_ne_dollar _ h.symm

theorem dollar_not_mem_mkKey (n : Nat) : '$' ∉ mkKey n := by
  intro h
  unfold mkKey at h
  rcases List.mem_append.mp h with h | h
  · rcases List.mem_append.mp h with h | h
    · exact absurd h (by decide)
    · exact dollar_not_mem_natDigitsGo _ _ h
  · exact absurd h (by decide)

theorem mkKey_ne_nil (n : Nat) : mkKey n ≠ [] := by
  intro h
  have hm : ('@' : Char) ∈ mkKey n := by
    unfold mkKey
    exact List.mem_append_left _ (List.mem_append_left _ (by decide))
  rw [h] at hm
  exact List.not_mem_nil _ hm

/-- A dollar-free prefix of the scanned text is copied verbatim to the
front of the block-pass output. -/
theorem blockSubGo_prefix_copy {ε : Type} (render : List Char → Nat → Except ε (List Nat))
    (t : List Char) :
    ∀ (fuel : Nat) (st : RState) (r out : List Char) (st' : RState), '$' ∉ t →
    blockSubGo render fuel st (t ++ r) = .ok (out, st') →
    ∃ out2, out = t ++ out2 := by
  induction t with
  | nil =>
    intro fuel st r out st' _ h
    exact ⟨out, by simp⟩
  | cons c t' ih =>
    intro fuel st r out st' hd h
    have hc : c ≠ '$' := fun hh => hd (by simp [hh])
    cases fuel with
    | zero =>
      simp only [blockSubGo, Except.ok.injEq, Prod.mk.injEq] at h
      exact ⟨r, by rw [← h.1]⟩
    | succ n =>
      rw [List.cons_append,
        blockSubGo_plain_eq render n st (fun _ hcc _ => hc hcc)] at h
      cases hbs : blockSubGo render n st (t' ++ r) with
      | error e =>
        rw [hbs, except_bind_error] at h
        exact absurd h (by simp)
      | ok q =>
        obtain ⟨q1, q2⟩ := q
        rw [hbs, except_bind_ok] at h
        simp only [Except.ok.injEq, Prod.mk.injEq] at h
        obtain ⟨out2, ho2⟩ :=
          ih n st r q1 q2 (fun hh => hd (List.mem_cons_of_mem _ hh)) hbs
        exact ⟨out2, by rw [← h.1, ho2]; rfl⟩

/-- A dollar-free prefix of the scanned text is copied verbatim to the
front of the inline-pass output. -/
theorem inlineSubGo_prefix_copy {ε : Type} (render : List Char → Nat → Except ε (List Nat))
    (t : List Char) :
    ∀ (fuel : Nat) (st : RState) (prev : Option Char) (r out : List Char) (st' : RState),
    '$' ∉ t →
    inlineSubGo render fuel st prev (t ++ r) = .ok (out, st') →
    ∃ out2, out = t ++ out2 := by
  induction t with
  | nil =>
    intro fuel st prev r out st' _ h
    exact ⟨out, by simp⟩
  | cons c t' ih =>
    intro fuel st prev r out st' hd h
    have hc : c ≠ '$' := fun hh => hd (by simp [hh])
    cases fuel with
    | zero =>
      simp only [inlineSubGo, Except.ok.injEq, Prod.mk.injEq] at h
      exact ⟨r, by rw [← h.1]⟩
    | succ n =>
      rw [List.cons_append,
        inlineSubGo_plain_eq render n st (fun hcc => hc hcc)] at h
      cases hbs : inlineSubGo render n st (some c) (t' ++ r) with
      | error e =>
        rw [hbs, except_bind_error] at h
        exact absurd h (by simp)
      | ok q =>
        obtain ⟨q1, q2⟩ := q
        rw [hbs, except_bind_ok] at h
        simp only [Except.ok.injEq, Prod.mk.injEq] at h
        obtain ⟨out2, ho2⟩ :=
          ih n st (some c) r q1 q2 (fun hh => hd (List.mem_cons_of_mem _ hh)) hbs
        exact ⟨out2, by rw [← h.1, ho2]; rfl⟩

/-- A dollar-free non-empty token occurring in the scanned text and not
contained in any recognised block span survives the block pass verbatim. -/
theorem blockSubGo_token_preserved {ε : Type} (render : List Char → Nat → Except ε (List Nat))
    (t : List Char) (hd : '$' ∉ t) (hne : t ≠ []) (fuel : Nat) (st : RState) (cs : List Char) :
    ∀ (out : List Char) (st' : RState), occursIn t cs →
    (∀ s ∈ blockSpansGo fuel cs, ¬ occursIn t s) →
    blockSubGo render fuel st cs = .ok (out, st') →
    occursIn t out := by
  induction fuel, st, cs using blockSubGo.induct render with
  | case1 st cs =>
    intro out st' hocc _ hrun
    simp only [blockSubGo, Except.ok.injEq, Prod.mk.injEq] at hrun
    rw [← hrun.1]
    exact hocc
  | case2 fuel st rest content rest' hfc ih =>
    intro out st' hocc hspan hrun
    have hrest : occursIn t rest :=
      occursIn_cons_dollar t _ (occursIn_cons_dollar t _ hocc hd hne) hd hne
    have hdec := findClose_eq rest content rest' hfc
    rw [hdec] at hrest
    have hsplit := occursIn_mid_dollar t content ('$' :: rest') hrest hd hne
    rcases hsplit with hsc | hsr
    · exact absurd hsc (hspan content (by
        simp only [blockSpansGo, hfc]
        exact List.mem_cons_self _ _))
    · have hrest' : occursIn t rest' := occursIn_cons_dollar t _ hsr hd hne
      rw [blockSubGo_match_eq render fuel st hfc] at hrun
      cases htex : tex_to_svg_data_uri render st (pyStrip content) 16 with
      | error e =>
        rw [htex, except_bind_error] at hrun
        exact absurd hrun (by simp)
      | ok p =>
        rw [htex, except_bind_ok] at hrun
        cases hbs : blockSubGo render fuel p.2 rest' with
        | error e =>
          rw [hbs, except_bind_error] at hrun
          exact absurd hrun (by simp)
        | ok q =>
          rw [hbs, except_bind_ok] at hrun
          simp only [Except.ok.injEq, Prod.mk.injEq] at hrun
          have hq : occursIn t q.1 := ih p.2 q.1 q.2 hrest'
            (fun s hs => hspan s (by
              simp only [blockSpansGo, hfc]
              exact List.mem_cons_of_mem _ hs))
            (by rw [hbs])
          rw [← hrun.1]
          exact occursIn_append_left t q.1 _ hq
  | case3 fuel st rest hfc ih =>
    intro out st' hocc hspan hrun
    have hrest : occursIn t ('$' :: rest) := occursIn_cons_dollar t _ hocc hd hne
    rw [blockSubGo_nomatch_eq render fuel st hfc] at hrun
    cases hbs : blockSubGo render fuel st ('$' :: rest) with
    | error e =>
      rw [hbs, except_bind_error] at hrun
      exact absurd hrun (by simp)
    | ok q =>
      rw [hbs, except_bind_ok] at hrun
      simp only [Except.ok.injEq, Prod.mk.injEq] at hrun
      have hq : occursIn t q.1 := ih q.1 q.2 hrest
        (fun s hs => hspan s (by simpa only [blockSpansGo, hfc] using hs))
        (by rw [hbs])
      rw [← hrun.1]
      exact occursIn_cons t '$' q.1 hq
  | case4 fuel st c rest hcp ih =>
    intro out st' hocc hspan hrun
    obtain ⟨l, r, hlr⟩ := hocc
    cases l with
    | nil =>
      simp only [List.nil_append] at hlr
      obtain ⟨out2, ho2⟩ := blockSubGo_prefix_copy render t (fuel + 1) st r out st' hd
        (by rw [← hlr]; exact hrun)
      exact ⟨[], out2, by rw [ho2]; rfl⟩
    | cons c1 l' =>
      simp only [List.cons_append, List.cons.injEq] at hlr
      have hrest : occursIn t rest := ⟨l', r, hlr.2⟩
      rw [blockSubGo_plain_eq render fuel st hcp] at hrun
      cases hbs : blockSubGo render fuel st rest with
      | error e =>
        rw [hbs, except_bind_error] at hrun
        exact absurd hrun (by simp)
      | ok q =>
        rw [hbs, except_bind_ok] at hrun
        simp only [Except.ok.injEq, Prod.mk.injEq] at hrun
        have hq : occursIn t q.1 := ih q.1 q.2 hrest
          (fun s hs => hspan s (by simpa only [blockSpansGo] using hs))
          (by rw [hbs])
        rw [← hrun.1]
        exact occursIn_cons t c q.1 hq
  | case5 fuel st =>
    intro out st' hocc _ _
    obtain ⟨l, r, hlr⟩ := hocc
    rcases List.append_eq_nil.mp hlr.symm with ⟨h2, _⟩
    rcases List.append_eq_nil.mp h2 with ⟨_, h3⟩
    exact absurd h3 hne

/-- A dollar-free non-empty token occurring in the scanned text and not
contained in any recognised inline span survives the inline pass verbatim. -/
theorem inlineSubGo_token_preserved {ε : Type} (render : List Char → Nat → Except ε (List Nat))
    (t : List Char) (hd : '$' ∉ t) (hne : t ≠ []) (fuel : Nat) (st : RState)
    (prev : Option Char) (cs : List Char) :
    ∀ (out : List Char) (st' : RState), occursIn t cs →
    (∀ s ∈ inlineSpansGo fuel prev cs, ¬ occursIn t s) →
    inlineSubGo render fuel st prev cs = .ok (out, st') →
    occursIn t out := by
  induction fuel, st, prev, cs using inlineSubGo.induct render with
  | case1 st prev cs =>
    intro out st' hocc _ hrun
    simp only [inlineSubGo, Except.ok.injEq, Prod.mk.injEq] at hrun
    rw [← hrun.1]
    exact hocc
  | case2 fuel st prev rest hc ih =>
    intro out st' hocc hspan hrun
    have hrest : occursIn t rest := occursIn_cons_dollar t _ hocc hd hne
    rw [inlineSubGo_skip_eq render fuel st hc] at hrun
    cases hbs : inlineSubGo render fuel st (some '$') rest with
    | error e =>
      rw [hbs, except_bind_error] at hrun
      exact absurd hrun (by simp)
    | ok q =>
      rw [hbs, except_bind_ok] at hrun
      simp only [Except.ok.injEq, Prod.mk.injEq] at hrun
      have hq : occursIn t q.1 := ih q.1 q.2 hrest
        (fun s hs => hspan s (by rw [inlineSpansGo_skip_eq fuel hc]; exact hs))
        (by rw [hbs])
      rw [← hrun.1]
      exact occursIn_cons t '$' q.1 hq
  | case3 fuel st prev rest hc content rest' hfc ih =>
    intro out st' hocc hspan hrun
    have hrest : occursIn t rest := occursIn_cons_dollar t _ hocc hd hne
    have hdec := findInlineClose_eq rest content rest' hfc
    rw [hdec] at hrest
    rcases occursIn_mid_dollar t content rest' hrest hd hne with hsc | hsr
    · exact absurd hsc (hspan content (by
        rw [inlineSpansGo_match_eq fuel hc hfc]
        exact List.mem_cons_self _ _))
    · rw [inlineSubGo_match_eq render fuel st hc hfc] at hrun
      cases htex : tex_to_svg_data_uri render st (pyStrip content) 12 with
      | error e =>
        rw [htex, except_bind_error] at hrun
        exact absurd hrun (by simp)
      | ok p =>
        rw [htex, except_bind_ok] at hrun
        cases hbs : inlineSubGo render fuel p.2 (some '$') rest' with
        | error e =>
          rw [hbs, except_bind_error] at hrun
          exact absurd hrun (by simp)
        | ok q =>
          rw [hbs, except_bind_ok] at hrun
          simp only [Except.ok.injEq, Prod.mk.injEq] at hrun
          have hq : occursIn t q.1 := ih p.2 q.1 q.2 hsr
            (fun s hs => hspan s (by
              rw [inlineSpansGo_match_eq fuel hc hfc]
              exact List.mem_cons_of_mem _ hs))
            (by rw [hbs])
          rw [← hrun.1]
          exact occursIn_append_left t q.1 _ hq
  | case4 fuel st prev rest hc hfc ih =>
    intro out st' hocc hspan hrun
    have hrest : occursIn t rest := occursIn_cons_dollar t _ hocc hd hne
    rw [inlineSubGo_nomatch_eq render fuel st hc hfc] at hrun
    cases hbs : inlineSubGo render fuel st (some '$') rest with
    | error e =>
      rw [hbs, except_bind_error] at hrun
      exact absurd hrun (by simp)
    | ok q =>
      rw [hbs, except_bind_ok] at hrun
      simp only [Except.ok.injEq, Prod.mk.injEq] at hrun
      have hq : occursIn t q.1 := ih q.1 q.2 hrest
        (fun s hs => hspan s (by rw [inlineSpansGo_nomatch_eq fuel hc hfc]; exact hs))
        (by rw [hbs])
      rw [← hrun.1]
      exact occursIn_cons t '$' q.1 hq
  | case5 fuel st prev c rest hcd ih =>
    intro out st' hocc hspan hrun
    obtain ⟨l, r, hlr⟩ := hocc
    cases l with
    | nil =>
      simp only [List.nil_append] at hlr
      obtain ⟨out2, ho2⟩ := inlineSubGo_prefix_copy render t (fuel + 1) st prev r out st' hd
        (by rw [← hlr]; exact hrun)
      exact ⟨[], out2, by rw [ho2]; rfl⟩
    | cons c1 l' =>
      simp only [List.cons_append, List.cons.injEq] at hlr
      have hrest : occursIn t rest := ⟨l', r, hlr.2⟩
      rw [inlineSubGo_plain_eq render fuel st hcd] at hrun
      cases hbs : inlineSubGo render fuel st (some c) rest with
      | error e =>
        rw [hbs, except_bind_error] at hrun
        exact absurd hrun (by simp)
      | ok q =>
        rw [hbs, except_bind_ok] at hrun
        simp only [Except.ok.injEq, Prod.mk.injEq] at hrun
        have hq : occursIn t q.1 := ih q.1 q.2 hrest
          (fun s hs => hspan s (by rw [inlineSpansGo_plain_eq fuel hcd]; exact hs))
          (by rw [hbs])
        rw [← hrun.1]
        exact occursIn_cons t c q.1 hq
  | case6 fuel st prev =>
    intro out st' hocc _ _
    obtain ⟨l, r, hlr⟩ := hocc
    rcases List.append_eq_nil.mp hlr.symm with ⟨h2, _⟩
    rcases List.append_eq_nil.mp h2 with ⟨_, h3⟩
    exact absurd h3 hne

/-- Every placeholder stored so far occurs verbatim in the emitted output
of the masking loop. -/
theorem foldl_stepLine_token (ls : List (List Char)) (s : PState)
    (hs : ∀ e ∈ s.blocks, occursIn (mkKey e.1) (joinAll s.out)) :
    ∀ e ∈ (ls.foldl stepLine s).blocks,
      occursIn (mkKey e.1) (joinAll (ls.foldl stepLine s).out) := by
  induction ls generalizing s with
  | nil => exact hs
  | cons l rest ih =>
    rw [List.foldl_cons]
    apply ih
    intro e he
    by_cases hsf : s.in_fence = false
    · cases hm : fenceMatch l with
      | some marker =>
        rw [stepLine_open s l marker hsf hm] at he ⊢
        exact hs e he
      | none =>
        rw [stepLine_pass s l hsf hm] at he ⊢
        show occursIn (mkKey e.1) (joinAll (s.out ++ [l]))
        rw [joinAll_append]
        exact occursIn_append_right _ _ _ (hs e he)
    · have hsf' : s.in_fence = true := by simpa using hsf
      cases hm : pyStartsWith (pyLstrip l) (s.fence.getD []) with
      | true =>
        rw [stepLine_close s l hsf' hm] at he ⊢
        replace he : e ∈ s.blocks ++ [(s.key.getD 0, joinAll (s.buf ++ [l]))] := he
        simp only [List.mem_append, List.mem_singleton] at he
        show occursIn (mkKey e.1) (joinAll (s.out ++ [mkKey (s.key.getD 0) ++ ['\n']]))
        rw [joinAll_append]
        rcases he with he | he
        · exact occursIn_append_right _ _ _ (hs e he)
        · rw [he]
          refine ⟨joinAll s.out, ['\n'] ++ [], ?_⟩
          simp [joinAll, List.append_assoc]
      | false =>
        rw [stepLine_stay s l hsf' hm] at he ⊢
        exact hs e he

/-- Every placeholder stored by the masking step occurs verbatim in the
masked text it returns. -/
theorem protect_token (d : List Char) (n : Nat) (v : List Char)
    (hmem : (n, v) ∈ (protect_fenced_code d).2) :
    occursIn (mkKey n) (protect_fenced_code d).1 := by
  unfold protect_fenced_code at hmem ⊢
  simp only at hmem ⊢
  have hocc := foldl_stepLine_token (splitlinesKeep d) initPState
    (by intro e he; simp [initPState] at he) (n, v) hmem
  split
  · rw [joinAll_append]
    exact occursIn_append_right _ _ _ hocc
  · exact hocc

/-- C8, counterexample: placeholder tokens can be captured inside a block
math replacement.  For the document `$$a`, fenced block, `b$$`, the masked
text is `$$a\n@@FENCED_CODE_BLOCK_0@@\nb$$\n` and the token emitted for
the fence lies inside the (DOTALL) block math span, so it is absorbed into
the rendered expression instead of being left intact for restoration. -/
theorem token_captured_counterexample :
    ¬ (∀ n v, (n, v) ∈ (protect_fenced_code (strChars "$$a\n```\nx\n```\nb$$\n")).2 →
        ∀ s ∈ blockSpans (protect_fenced_code (strChars "$$a\n```\nx\n```\nb$$\n")).1,
          ¬ occursIn (mkKey n) s) := by
  intro hcl
  exact hcl 0 (strChars "```\nx\n```\n") (by decide)
    (strChars "a\n@@FENCED_CODE_BLOCK_0@@\nb") (by decide)
    ⟨strChars "a\n", strChars "\nb", by decide⟩

/-- C8, amended: every placeholder token emitted by the masking step
occurs verbatim in the masked text, and if no recognised block math span
of the masked text and no recognised inline math span of the block-pass
output contains the token, then the token appears verbatim and unmodified
in the text produced by the math-substitution step, which restoration then
processes; a block span can however capture a token when `$$` delimiters
enclose its placeholder line (see the counterexample). -/
theorem token_preserved_amended {ε : Type}
    (render : List Char → Nat → Except ε (List Nat)) (st st1 st2 : RState)
    (d : List Char) (n : Nat) (v : List Char) (b i : List Char)
    (hmem : (n, v) ∈ (protect_fenced_code d).2)
    (hb : blockSub render st (protect_fenced_code d).1 = .ok (b, st1))
    (hi : inlineSub render st1 b = .ok (i, st2))
    (hnb : ∀ s ∈ blockSpans (protect_fenced_code d).1, ¬ occursIn (mkKey n) s)
    (hni : ∀ s ∈ inlineSpans b, ¬ occursIn (mkKey n) s) :
    occursIn (mkKey n) (protect_fenced_code d).1 ∧
    occursIn (mkKey n) i ∧
    render_math_in_markdown render st d =
      .ok (restore_fenced_code i (protect_fenced_code d).2, st2) := by
  have h0 : occursIn (mkKey n) (protect_fenced_code d).1 := protect_token d n v hmem
  have h1 : occursIn (mkKey n) b :=
    blockSubGo_token_preserved render (mkKey n) (dollar_not_mem_mkKey n)
      (mkKey_ne_nil n) _ st _ b st1 h0 hnb hb
  have h2 : occursIn (mkKey n) i :=
    inlineSubGo_token_preserved render (mkKey n) (dollar_not_mem_mkKey n)
      (mkKey_ne_nil n) _ st1 none b i st2 h1 hni hi
  refine ⟨h0, h2, ?_⟩
  have hpipe : render_math_in_markdown render st d =
      (blockSub render st (protect_fenced_code d).1).bind (fun p =>
        (inlineSub render p.2 p.1).bind (fun q =>
          Except.ok (restore_fenced_code q.1 (protect_fenced_code d).2, q.2))) := rfl
  rw [hpipe, hb, except_bind_ok, hi, except_bind_ok]

/-- C8, witness for the amended theorem at a concrete document with one
fenced block and no math. -/
theorem token_preserved_amended_witness :
    ((0, strChars "```\nq\n```\n") ∈
      (protect_fenced_code (strChars "a\n```\nq\n```\nc\n")).2) ∧
    occursIn (mkKey 0) (strChars "a\n@@FENCED_CODE_BLOCK_0@@\nc\n") := by
  have hb : blockSub (fun _ _ => Except.ok ([] : List Nat) :
        List Char → Nat → Except Unit (List Nat)) (RState.mk [] [])
        (protect_fenced_code (strChars "a\n```\nq\n```\nc\n")).1 =
      .ok (strChars "a\n@@FENCED_CODE_BLOCK_0@@\nc\n", RState.mk [] []) := by decide
  have hi : inlineSub (fun _ _ => Except.ok ([] : List Nat) :
        List Char → Nat → Except Unit (List Nat)) (RState.mk [] [])
        (strChars "a\n@@FENCED_CODE_BLOCK_0@@\nc\n") =
      .ok (strChars "a\n@@FENCED_CODE_BLOCK_0@@\nc\n", RState.mk [] []) := by decide
  have hnb : ∀ s ∈ blockSpans
      (protect_fenced_code (strChars "a\n```\nq\n```\nc\n")).1,
      ¬ occursIn (mkKey 0) s := by
    intro s hs
    rw [show blockSpans (protect_fenced_code (strChars "a\n```\nq\n```\nc\n")).1 =
      [] from by decide] at hs
    exact absurd hs (List.not_mem_nil s)
  have hni : ∀ s ∈ inlineSpans (strChars "a\n@@FENCED_CODE_BLOCK_0@@\nc\n"),
      ¬ occursIn (mkKey 0) s := by
    intro s hs
    rw [show inlineSpans (strChars "a\n@@FENCED_CODE_BLOCK_0@@\nc\n") = [] from by
      decide] at hs
    exact absurd hs (List.not_mem_nil s)
  obtain ⟨w0, w2, _⟩ := token_preserved_amended
    (fun _ _ => Except.ok ([] : List Nat) : List Char → Nat → Except Unit (List Nat))
    (RState.mk [] []) (RState.mk [] []) (RState.mk [] [])
    (strChars "a\n```\nq\n```\nc\n") 0 (strChars "```\nq\n```\n")
    (strChars "a\n@@FENCED_CODE_BLOCK_0@@\nc\n")
    (strChars "a\n@@FENCED_CODE_BLOCK_0@@\nc\n")
    (by decide) hb hi hnb hni
  exact ⟨by decide, w2⟩

/-!
## Claim C10, general pass-through
-/

/-- Walking the masking loop from inside an open fence: either some line
closes the fence (no earlier line closing it) and the loop continues after
emitting the placeholder line, or no line closes it and all lines are
buffered. -/
theorem foldl_stepLine_fence_walk (ls : List (List Char)) (s : PState)
    (hf : s.in_fence = true) :
    (∃ body lc ls₂, ls = body ++ lc :: ls₂ ∧
      (∀ b ∈ body, pyStartsWith (pyLstrip b) (s.fence.getD []) = false) ∧
      pyStartsWith (pyLstrip lc) (s.fence.getD []) = true ∧
      ls.foldl stepLine s = ls₂.foldl stepLine
        { s with
          in_fence := false,
          blocks := s.blocks ++ [(s.key.getD 0, joinAll (s.buf ++ (body ++ [lc])))],
          out := s.out ++ [mkKey (s.key.getD 0) ++ ['\n']],
          buf := [], fence := none, key := none }) ∨
    ((∀ b ∈ ls, pyStartsWith (pyLstrip b) (s.fence.getD []) = false) ∧
      ls.foldl stepLine s = { s with buf := s.buf ++ ls }) := by
  induction ls generalizing s with
  | nil =>
    right
    refine ⟨by simp, ?_⟩
    simp
  | cons l ls' ih =>
    rw [List.foldl_cons]
    cases hm : pyStartsWith (pyLstrip l) (s.fence.getD []) with
    | true =>
      left
      refine ⟨[], l, ls', by simp, by simp, hm, ?_⟩
      rw [stepLine_close s l hf hm]
      exact rfl
    | false =>
      rw [stepLine_stay s l hf hm]
      rcases ih { s with buf := s.buf ++ [l] } hf with
        ⟨body', lc, ls₂, h1, h2, h3, h4⟩ | ⟨h1, h2⟩
      · left
        refine ⟨l :: body', lc, ls₂, by rw [h1]; rfl, ?_, h3, ?_⟩
        · intro b hb
          rcases List.mem_cons.mp hb with rfl | hb
          · exact hm
          · exact h2 b hb
        · rw [h4]
          simp only [List.append_assoc, List.cons_append, List.singleton_append,
            List.nil_append]
      · right
        refine ⟨?_, ?_⟩
        · intro b hb
          rcases List.mem_cons.mp hb with rfl | hb
          · exact hm
          · exact h1 b hb
        · rw [h2]
          show ({ s with buf := (s.buf ++ [l]) ++ ls' } : PState) = _
          rw [List.append_assoc]
          rfl

/-- Main masking lemma: starting outside a fence with an empty buffer, the
loop of `_protect_fenced_code` (including the final flush of an unclosed
trailing fence) appends to the output exactly a line list related to the
input lines by `MaskedLines`: non-fence lines outside fences are copied
verbatim in position, each closed fence region collapses to one
placeholder line, and a trailing unterminated fence is emitted raw. -/
theorem foldl_stepLine_masked (n : Nat) :
    ∀ (ls : List (List Char)) (s : PState),
      ls.length ≤ n → s.in_fence = false → s.buf = [] →
      ∃ new : List (List Char),
        (if (ls.foldl stepLine s).in_fence && !(ls.foldl stepLine s).buf.isEmpty
         then (ls.foldl stepLine s).out ++ (ls.foldl stepLine s).buf
         else (ls.foldl stepLine s).out) = s.out ++ new ∧
        MaskedLines ls new := by
  induction n with
  | zero =>
    intro ls s hlen hf _hb
    have hnil : ls = [] := List.length_eq_zero.mp (Nat.le_zero.mp hlen)
    subst hnil
    exact ⟨[], by simp [hf], MaskedLines.nil⟩
  | succ m ih =>
    intro ls s hlen hf hb
    cases ls with
    | nil => exact ⟨[], by simp [hf], MaskedLines.nil⟩
    | cons l ls' =>
      have hlen' : ls'.length ≤ m := by
        simp only [List.length_cons] at hlen
        omega
      rw [List.foldl_cons]
      cases hm : fenceMatch l with
      | none =>
        rw [stepLine_pass s l hf hm]
        obtain ⟨new', h1, h2⟩ := ih ls' { s with out := s.out ++ [l] } hlen' hf hb
        refine ⟨l :: new', ?_, MaskedLines.pass hm h2⟩
        rw [h1]
        simp
      | some marker =>
        rw [stepLine_open s l marker hf hm]
        rcases foldl_stepLine_fence_walk ls'
            { s with in_fence := true, fence := some marker, buf := [l],
                     key := some s.idx, idx := s.idx + 1 } rfl with
          ⟨body, lc, ls₂, hEq, hBody, hLc, hFold⟩ | ⟨hAll, hFold⟩
        · subst hEq
          have hFold' :
              List.foldl stepLine
                { s with in_fence := true, fence := some marker, buf := [l],
                         key := some s.idx, idx := s.idx + 1 } (body ++ lc :: ls₂) =
              List.foldl stepLine
                { out := s.out ++ [mkKey s.idx ++ ['\n']],
                  blocks := s.blocks ++ [(s.idx, joinAll (l :: (body ++ [lc])))],
                  in_fence := false, fence := none, buf := [], key := none,
                  idx := s.idx + 1 } ls₂ := hFold
          rw [hFold']
          have hlen₂ : ls₂.length ≤ m := by
            simp only [List.length_append, List.length_cons] at hlen'
            omega
          obtain ⟨new', h1, h2⟩ :=
            ih ls₂
              { out := s.out ++ [mkKey s.idx ++ ['\n']],
                blocks := s.blocks ++ [(s.idx, joinAll (l :: (body ++ [lc])))],
                in_fence := false, fence := none, buf := [], key := none,
                idx := s.idx + 1 } hlen₂ rfl rfl
          refine ⟨(mkKey s.idx ++ ['\n']) :: new', ?_, ?_⟩
          · rw [h1]
            show (s.out ++ [mkKey s.idx ++ ['\n']]) ++ new' =
              s.out ++ ((mkKey s.idx ++ ['\n']) :: new')
            simp
          · exact MaskedLines.fence hm hBody hLc h2
        · have hFold' :
              List.foldl stepLine
                { s with in_fence := true, fence := some marker, buf := [l],
                         key := some s.idx, idx := s.idx + 1 } ls' =
              { out := s.out, blocks := s.blocks, in_fence := true,
                fence := some marker, buf := l :: ls', key := some s.idx,
                idx := s.idx + 1 } := hFold
          rw [hFold']
          exact ⟨l :: ls', rfl, MaskedLines.unterminated hm hAll⟩

/-- **C10.**  For every document, each line that is not part of any fence
region is passed through the masking step unchanged and in its original
relative order: the masked text is the concatenation of a line list
related to the document's lines by `MaskedLines`, which copies every
non-fence line outside a fence region verbatim in position, collapses
each closed fence region (opener, non-closing body lines, closing line)
into its single placeholder line, and emits a trailing unterminated fence
raw.  In particular, a document containing no line whose
whitespace-stripped prefix is one of the two fence markers is returned by
the masking step byte-for-byte unchanged with an empty placeholder map. -/
theorem protect_lines_pass_through (d : List Char) :
    (∃ outLines : List (List Char),
        (protect_fenced_code d).1 = joinAll outLines ∧
        MaskedLines (splitlinesKeep d) outLines) ∧
    ((∀ l ∈ splitlinesKeep d, fenceMatch l = none) →
        protect_fenced_code d = (d, [])) := by
  refine ⟨?_, protect_no_fence_identity d⟩
  obtain ⟨new, h1, h2⟩ := foldl_stepLine_masked (splitlinesKeep d).length
    (splitlinesKeep d) initPState le_rfl rfl rfl
  refine ⟨new, ?_, h2⟩
  have key : (protect_fenced_code d).1 = joinAll
      (if ((splitlinesKeep d).foldl stepLine initPState).in_fence &&
          !((splitlinesKeep d).foldl stepLine initPState).buf.isEmpty
       then ((splitlinesKeep d).foldl stepLine initPState).out ++
            ((splitlinesKeep d).foldl stepLine initPState).buf
       else ((splitlinesKeep d).foldl stepLine initPState).out) := rfl
  rw [key, h1]
  exact rfl

/-- The C10 fence-free corollary at a concrete document, with the
hypothesis checked by evaluation. -/
theorem protect_lines_pass_through_witness :
    (∀ l ∈ splitlinesKeep (strChars "a $x$ b\n"), fenceMatch l = none) ∧
    protect_fenced_code (strChars "a $x$ b\n") = (strChars "a $x$ b\n", []) :=
  ⟨by decide, (protect_lines_pass_through (strChars "a $x$ b\n")).2 (by decide)⟩
